import Mathlib

/-!
Verification of the AST-to-IR lowering core of the fcc compiler
(src/emitter.c) against its natural-language specification.

The C module is shallowly embedded as pure Lean functions.  Machine
pointers to IR blocks become natural-number block ids; the nullable
jump-target pointers of the emitter context become Option Nat (none is
the null pointer).  The current-block reference threaded through
statement lowering is also an Option Nat: the value none additionally
models the one place where the C code reads an uninitialized block
variable (the unhandled-tag branch of emitterLine).  Side effects on
the IR context (block creation, jump emission, prologue/epilogue) and
all calls into external collaborators (the value lowerer, the
declaration lowerer, the register allocator, the debug sink) are
recorded as an event trace, newest event first.

External collaborators are out of scope of the module under test
(emitter-value.h, emitter-decl.h, reg.h, debug.h); they are modelled
as functions that record one event and leave the current block
unchanged.  The operand returned by the external expression lowerer
for a requestValue request is supplied as an annotation on the AST
node (ast.valueOperand), and whether the external register allocator
can grant the canonical return register is supplied as an oracle bit
(emitterCtx.raxAvailable).  Symbol mutation (the offset slots written
by the parameter pass and the scope offset assigner) is modelled
functionally: the passes return the updated symbol tree.
-/

namespace Fcc

/-- AST tags, from inc/ast.h, restricted to the tags the emitter core
dispatches on.  astLiteral, astBOP and astCall stand for the family of
value tags recognised by astIsValueTag. -/
inductive astTag where
  | astUsing | astFnImpl | astDecl | astEmpty
  | astBranch | astLoop | astIter | astCode
  | astReturn | astBreak | astContinue
  | astLiteral | astBOP | astCall
  deriving DecidableEq, Repr

open astTag

/-- String form of a tag, as astTagGetStr returns it. -/
def astTagGetStr : astTag → String
  | astUsing => "astUsing" | astFnImpl => "astFnImpl"
  | astDecl => "astDecl" | astEmpty => "astEmpty"
  | astBranch => "astBranch" | astLoop => "astLoop"
  | astIter => "astIter" | astCode => "astCode"
  | astReturn => "astReturn" | astBreak => "astBreak"
  | astContinue => "astContinue"
  | astLiteral => "astLiteral" | astBOP => "astBOP" | astCall => "astCall"

/-- Whether a tag is an expression (value) tag, as astIsValueTag. -/
def astIsValueTag : astTag → Bool
  | astLiteral => true | astBOP => true | astCall => true
  | _ => false

/-- Symbol tags, from inc/sym.h, restricted to what the core
distinguishes: scopes, locals, parameters, and a representative for
every other tag (ignored by the offset passes). -/
inductive symTag where
  | symScope | symId | symParam | symTypedef
  deriving DecidableEq, Repr

/-- Type handles are opaque to the core (spec section 3): it only ever
takes a size and the return type of a function type.  A basic type
carries its size; a function type carries its return type. -/
inductive ctype where
  | basic (size : Nat)
  | fn (ret : ctype)
  deriving DecidableEq, Repr

/-- Architecture descriptor: the word size in bytes, plus the label
the external symbol mangler would assign (the mangler itself is an
external collaborator). -/
structure architecture where
  wordsize : Nat
  mangledLabel : Nat
  deriving DecidableEq, Repr

/-- typeGetSize, from inc/type.h.  The core only applies it to basic
types; a function type is given pointer (word) size. -/
def typeGetSize (arch : architecture) : ctype → Nat
  | .basic size => size
  | .fn _ => arch.wordsize

/-- typeGetReturn, from inc/type.h. -/
def typeGetReturn : ctype → ctype
  | .fn ret => ret
  | .basic size => .basic size

/-- Symbol: tag, type, children vector, mangled label (0 when not yet
assigned) and the mutable frame offset slot. -/
inductive sym where
  | mk (tag : symTag) (dt : ctype) (children : List sym) (label : Nat) (offset : Int)

def sym.tag : sym → symTag
  | .mk t _ _ _ _ => t

def sym.dt : sym → ctype
  | .mk _ d _ _ _ => d

def sym.children : sym → List sym
  | .mk _ _ cs _ _ => cs

def sym.label : sym → Nat
  | .mk _ _ _ lb _ => lb

def sym.offset : sym → Int
  | .mk _ _ _ _ o => o

/-- Write the offset slot of a symbol (Symbol->offset = ...). -/
def sym.setOffset : sym → Int → sym
  | .mk t d cs lb _, o => .mk t d cs lb o

/-- Replace the children vector of a symbol (models in-place mutation
of the children by the parameter pass). -/
def sym.setChildren : sym → List sym → sym
  | .mk t d _ lb o, cs => .mk t d cs lb o

/-- Canonical register indices (inc/reg.h); regRAX is the integer
return register, regRBP the frame base register. -/
def regRAX : Nat := 0

/-- Frame base register index. -/
def regRBP : Nat := 5

/-- Operands, from inc/operand.h, restricted to the shapes the return
lowerer builds: a register operand and a memory operand. -/
inductive operand where
  | reg (base : Nat) (size : Nat)
  | mem (base : Nat) (offset : Int) (size : Nat)
  deriving DecidableEq, Repr

/-- Base register of an operand (the .base field read by the return
lowerer). -/
def operand.base : operand → Nat
  | .reg b _ => b
  | .mem b _ _ => b

/-- AST node: tag, child list (the firstChild/nextSibling chain), the
l and r child pointers, the symbol pointer, the expression type, plus
the annotation valueOperand: the operand the external expression
lowerer returns for this node under a requestValue request. -/
inductive ast where
  | mk (tag : astTag) (children : List ast) (l r : Option ast)
       (symbol : sym) (dt : ctype) (valueOperand : operand)

def ast.tag : ast → astTag
  | .mk t _ _ _ _ _ _ => t

def ast.children : ast → List ast
  | .mk _ cs _ _ _ _ _ => cs

def ast.l : ast → Option ast
  | .mk _ _ l _ _ _ _ => l

def ast.r : ast → Option ast
  | .mk _ _ _ r _ _ _ => r

def ast.symbol : ast → sym
  | .mk _ _ _ _ s _ _ => s

def ast.dt : ast → ctype
  | .mk _ _ _ _ _ d _ => d

def ast.valueOperand : ast → operand
  | .mk _ _ _ _ _ _ v => v

/-- One recorded effect: an IR emission, a call into an external
collaborator, or a debug-sink report.  jump and branchOnValue carry
the source block as Option Nat because the C code can reach them with
an indeterminate block (see emitterLine); a jump target is Option Nat
because the jump-target fields of the emitter context are nullable. -/
inductive irEvent where
  | jump (src : Option Nat) (tgt : Option Nat)
  | branchOnValue (src : Option Nat) (ifTrue ifFalse : Nat)
  | fnPrologue (blk : Nat) (label : Nat) (stacksize : Int)
  | fnEpilogue (blk : Nat)
  | evalValue (src : Option Nat)
  | evalValueRet (res : operand)
  | declLowered (src : Option Nat)
  | declTopLowered
  | asmMoveEv (dst src : operand)
  | regAllocEv (r : Nat) (size : Nat)
  | regRequestEv (r : Nat) (size : Nat) (granted : Bool)
  | regFreeEv (r : Nat)
  | operandFreeEv (o : operand)
  | reportSymbolEv (offset : Int)
  | debugMsgEv (msg : String)
  | debugErrorUnhandledEv (fn : String) (tag : String)
  | debugErrorEv (fn : String) (msg : String)
  | mangleEv
  | irEmitEv
  deriving DecidableEq, Repr

/-- Emitter context (inc/emitter.h) merged with the IR context it
owns: the architecture, the three jump targets, the IR block counter,
the external register-allocator counter and oracle, and the event
trace (newest first). -/
structure emitterCtx where
  arch : architecture
  returnTo : Option Nat
  breakTo : Option Nat
  continueTo : Option Nat
  nextBlock : Nat
  nextReg : Nat
  raxAvailable : Bool
  events : List irEvent
  deriving DecidableEq, Repr

/-- Record one event. -/
def emit (ctx : emitterCtx) (e : irEvent) : emitterCtx :=
  { ctx with events := e :: ctx.events }

/-- irBlockCreate: a fresh block id from the IR context. -/
def irBlockCreate (ctx : emitterCtx) : Nat × emitterCtx :=
  (ctx.nextBlock, { ctx with nextBlock := ctx.nextBlock + 1 })

/-- irJump: append an unconditional terminator. -/
def irJump (ctx : emitterCtx) (src tgt : Option Nat) : emitterCtx :=
  emit ctx (.jump src tgt)

/-- External collaborator emitterBranchOnValue (emitter-value.h):
emits a conditional terminator on the condition node. -/
def emitterBranchOnValue (ctx : emitterCtx) (src : Option Nat) (_cond : ast)
    (ifTrue ifFalse : Nat) : emitterCtx :=
  emit ctx (.branchOnValue src ifTrue ifFalse)

/-- External collaborator emitterValue with an in/out block and a
requestVoid request (statement-position expressions).  Modelled as one
event; block splitting inside the external lowerer is outside this
module. -/
def emitterValueVoid (ctx : emitterCtx) (block : Option Nat) (_node : ast) :
    Option Nat × emitterCtx :=
  (block, emit ctx (.evalValue block))

/-- External collaborator emitterValue under requestValue, as the
return lowerer calls it: yields the operand annotated on the node. -/
def emitterValueRet (ctx : emitterCtx) (node : ast) : operand × emitterCtx :=
  (node.valueOperand, emit ctx (.evalValueRet node.valueOperand))

/-- External collaborator emitterDecl with an in/out block (statement
position). -/
def emitterDeclStmt (ctx : emitterCtx) (block : Option Nat) (_node : ast) :
    Option Nat × emitterCtx :=
  (block, emit ctx (.declLowered block))

/-- External collaborator emitterDecl at module level (no block). -/
def emitterDeclTop (ctx : emitterCtx) (_node : ast) : emitterCtx :=
  emit ctx .declTopLowered

/-- External register allocator regAlloc: a fresh scratch register of
the requested size. -/
def regAlloc (ctx : emitterCtx) (size : Nat) : Nat × emitterCtx :=
  (ctx.nextReg,
    emit { ctx with nextReg := ctx.nextReg + 1 } (.regAllocEv ctx.nextReg size))

/-- External register allocator regRequest: ask for a specific
register; succeeds iff the oracle bit says the register is free. -/
def regRequest (ctx : emitterCtx) (r size : Nat) : Option Nat × emitterCtx :=
  if ctx.raxAvailable then (some r, emit ctx (.regRequestEv r size true))
  else (none, emit ctx (.regRequestEv r size false))

/-- External register allocator regFree. -/
def regFree (ctx : emitterCtx) (r : Nat) : emitterCtx :=
  emit ctx (.regFreeEv r)

/-- External operandFree. -/
def operandFree (ctx : emitterCtx) (o : operand) : emitterCtx :=
  emit ctx (.operandFreeEv o)

/-- emitterSetBreakTo: install a new break target, returning the old
one. -/
def emitterSetBreakTo (ctx : emitterCtx) (block : Option Nat) :
    Option Nat × emitterCtx :=
  (ctx.breakTo, { ctx with breakTo := block })

/-- emitterSetContinueTo: install a new continue target, returning the
old one. -/
def emitterSetContinueTo (ctx : emitterCtx) (block : Option Nat) :
    Option Nat × emitterCtx :=
  (ctx.continueTo, { ctx with continueTo := block })

/-- emitterInit: all three jump targets start null.  The output path
of the C function is not modelled; the register-allocator oracle bit
enters here. -/
def emitterInit (arch : architecture) (raxAvailable : Bool) : emitterCtx :=
  { arch := arch, returnTo := none, breakTo := none, continueTo := none,
    nextBlock := 0, nextReg := 8, raxAvailable := raxAvailable, events := [] }

mutual

/-- emitterScopeAssignOffsets: walk the children of a scope symbol in
declaration order, assigning frame offsets to symId children,
recursing into symScope children with the running offset, ignoring
every other tag; returns the updated symbol and the final offset. -/
def emitterScopeAssignOffsets (arch : architecture) : sym → Int → sym × Int
  | .mk t d cs lb o, offset =>
    let res := scopeAssignList arch cs offset
    (.mk t d res.1 lb o, res.2)

/-- The child loop of emitterScopeAssignOffsets. -/
def scopeAssignList (arch : architecture) : List sym → Int → List sym × Int
  | [], offset => ([], offset)
  | s :: rest, offset =>
    if s.tag = symTag.symScope then
      let res := emitterScopeAssignOffsets arch s offset
      let res2 := scopeAssignList arch rest res.2
      (res.1 :: res2.1, res2.2)
    else if s.tag = symTag.symId then
      let offset1 := offset - typeGetSize arch s.dt
      let res2 := scopeAssignList arch rest offset1
      (s.setOffset offset1 :: res2.1, res2.2)
    else
      let res2 := scopeAssignList arch rest offset
      (s :: res2.1, res2.2)

end

/-- The initial parameter offset computed at the top of emitterFnImpl:
two words for the saved base pointer and return address, plus one more
word when the return type is larger than a machine word (hidden return
pointer). -/
def emitterParamBase (arch : architecture) (fnSym : sym) : Int :=
  let lastOffset : Int := 2 * arch.wordsize
  if typeGetSize arch (typeGetReturn fnSym.dt) > arch.wordsize then
    lastOffset + arch.wordsize
  else lastOffset

/-- The parameter loop of emitterFnImpl: while the child is a
symParam, store the running offset into it and advance by its type
size; stop at the first non-param child.  Returns the updated children
and the final running offset. -/
def emitterFnParams (arch : architecture) : List sym → Int → List sym × Int
  | [], lastOffset => ([], lastOffset)
  | s :: rest, lastOffset =>
    if s.tag ≠ symTag.symParam then (s :: rest, lastOffset)
    else
      let s1 := s.setOffset lastOffset
      let res := emitterFnParams arch rest (lastOffset + typeGetSize arch s.dt)
      (s1 :: res.1, res.2)

/-- emitterReturn: lower a return statement.  A void return just jumps
to returnTo.  A value return lowers the expression; if the value is
larger than a machine word it is copied through the hidden return
pointer at frame base + 2 words into the caller-allocated temporary;
then the canonical return register is requested at word size (hidden
pointer) or value size and the value moved into it; finally the jump
to returnTo is emitted. -/
def emitterReturn (ctx : emitterCtx) (block : Option Nat) (node : ast) :
    emitterCtx :=
  match node.r with
  | none => irJump ctx block ctx.returnTo
  | some expr =>
    let (ret, ctx1) := emitterValueRet ctx expr
    let retSize := typeGetSize ctx.arch expr.dt
    let retInTemp := retSize > ctx.arch.wordsize
    let (ret2, ctx4) :=
      if retInTemp then
        let (tempReg, ctx2) := regAlloc ctx1 ctx.arch.wordsize
        let tempRef := operand.reg tempReg ctx.arch.wordsize
        let ctx3 := emit ctx2 (.asmMoveEv tempRef
          (operand.mem regRBP (2 * ctx.arch.wordsize) ctx.arch.wordsize))
        let ctx3a := emit ctx3 (.asmMoveEv (operand.mem tempRef.base 0 retSize) ret)
        let ctx3b := operandFree ctx3a ret
        (tempRef, ctx3b)
      else (ret, ctx1)
    let reqSize := if retInTemp then ctx.arch.wordsize else retSize
    let (rax, ctx5) := regRequest ctx4 regRAX reqSize
    let ctx6 :=
      match rax with
      | some r =>
        let ctx5a := emit ctx5 (.asmMoveEv (operand.reg r reqSize) ret2)
        regFree ctx5a r
      | none =>
        if ret2.base ≠ regRAX then
          emit ctx5 (.debugErrorEv "emitterLine" "unable to allocate RAX for return")
        else ctx5
    let ctx7 := operandFree ctx6 ret2
    irJump ctx7 block ctx7.returnTo

mutual

/-- emitterLine: the statement lowerer.  The C if-else chain on the
tag becomes a match with one arm per tag: the tags are pairwise
distinct, so the dispatch is the same; the three value tags spell out
astIsValueTag (lemma emitterLine_value_dispatch), and the two tags the
chain does not handle (astUsing, astFnImpl) land in the final
debugErrorUnhandled arms.  Because Lean structural recursion cannot
pass the whole node to a mutually recursive lowerer, the bodies of
emitterBranch, emitterLoop and emitterIter (and of emitterCode in the
astCode case) are inlined here; the standalone definitions of those
lowerers below are proved to agree with this dispatch (lemmas
emitterLine_branch, emitterLine_loop, emitterLine_iter,
emitterLine_code).  The result block is an Option Nat: every handled
tag yields a real block, while the unhandled-tag arms return none,
modelling the uninitialized local continuation the C function returns
there. -/
def emitterLine (ctx : emitterCtx) (block : Option Nat) : ast → Option Nat × emitterCtx
  | .mk tag children l r symb dt vop =>
    match tag with
    | astBranch =>
      match children, l, r with
      | condNode :: _, some thenNode, some elseNode =>
        let (continuation, ctx1) := irBlockCreate ctx
        let (ifTrue, ctx2) := irBlockCreate ctx1
        let (ifFalse, ctx3) := irBlockCreate ctx2
        let ctx4 := emitterBranchOnValue ctx3 block condNode ifTrue ifFalse
        let ctx5 := emitterCode ctx4 (some ifTrue) thenNode continuation
        let ctx6 := emitterCode ctx5 (some ifFalse) elseNode continuation
        (some continuation, ctx6)
      | _, _, _ => (none, ctx)
    | astLoop =>
      match l, r with
      | some a, some b =>
        let (continuation, ctx1) := irBlockCreate ctx
        let (body, ctx2) := irBlockCreate ctx1
        let (loopCheck, ctx3) := irBlockCreate ctx2
        if a.tag = astCode then
          let ctx4 := irJump ctx3 block (some body)
          let (oldBreakTo, ctx5) := emitterSetBreakTo ctx4 (some continuation)
          let (oldContinueTo, ctx6) := emitterSetContinueTo ctx5 (some loopCheck)
          let ctx7 := emitterCode ctx6 (some body) a loopCheck
          let ctx8 := { ctx7 with breakTo := oldBreakTo, continueTo := oldContinueTo }
          let ctx9 := emitterBranchOnValue ctx8 (some loopCheck) b body continuation
          (some continuation, ctx9)
        else
          let ctx4 := emitterBranchOnValue ctx3 block a body continuation
          let (oldBreakTo, ctx5) := emitterSetBreakTo ctx4 (some continuation)
          let (oldContinueTo, ctx6) := emitterSetContinueTo ctx5 (some loopCheck)
          let ctx7 := emitterCode ctx6 (some body) b loopCheck
          let ctx8 := { ctx7 with breakTo := oldBreakTo, continueTo := oldContinueTo }
          let ctx9 := emitterBranchOnValue ctx8 (some loopCheck) a body continuation
          (some continuation, ctx9)
      | _, _ => (none, ctx)
    | astIter =>
      match children, l with
      | initNode :: condNode :: stepNode :: _, some codeNode =>
        let (continuation, ctx1) := irBlockCreate ctx
        let (body, ctx2) := irBlockCreate ctx1
        let (iterate, ctx3) := irBlockCreate ctx2
        let (block1, ctx4) :=
          if initNode.tag = astDecl then emitterDeclStmt ctx3 block initNode
          else emitterValueVoid ctx3 block initNode
        let ctx5 := emitterBranchOnValue ctx4 block1 condNode body continuation
        let (oldBreakTo, ctx6) := emitterSetBreakTo ctx5 (some continuation)
        let (oldContinueTo, ctx7) := emitterSetContinueTo ctx6 (some iterate)
        let ctx8 := emitterCode ctx7 (some body) codeNode iterate
        let ctx9 := { ctx8 with breakTo := oldBreakTo, continueTo := oldContinueTo }
        let (iterate1, ctx10) := emitterValueVoid ctx9 (some iterate) stepNode
        let ctx11 := emitterBranchOnValue ctx10 iterate1 condNode body continuation
        (some continuation, ctx11)
      | _, _ => (none, ctx)
    | astCode =>
      let (continuation, ctx1) := irBlockCreate ctx
      let res := emitterCodeLines ctx1 block children
      let ctx3 := irJump res.2 res.1 (some continuation)
      (some continuation, ctx3)
    | astReturn =>
      let ctx1 := emitterReturn ctx block (.mk tag children l r symb dt vop)
      let (continuation, ctx2) := irBlockCreate ctx1
      (some continuation, ctx2)
    | astBreak =>
      let ctx1 := irJump ctx block ctx.breakTo
      let (continuation, ctx2) := irBlockCreate ctx1
      (some continuation, ctx2)
    | astContinue =>
      let ctx1 := irJump ctx block ctx.continueTo
      let (continuation, ctx2) := irBlockCreate ctx1
      (some continuation, ctx2)
    | astDecl =>
      emitterDeclStmt ctx block (.mk tag children l r symb dt vop)
    | astLiteral =>
      emitterValueVoid ctx block (.mk tag children l r symb dt vop)
    | astBOP =>
      emitterValueVoid ctx block (.mk tag children l r symb dt vop)
    | astCall =>
      emitterValueVoid ctx block (.mk tag children l r symb dt vop)
    | astEmpty =>
      (block, ctx)
    | astUsing =>
      (none, emit ctx (.debugErrorUnhandledEv "emitterLine" (astTagGetStr tag)))
    | astFnImpl =>
      (none, emit ctx (.debugErrorUnhandledEv "emitterLine" (astTagGetStr tag)))

/-- emitterCode: thread the current block through the children of a
code node, then jump to the externally supplied continuation. -/
def emitterCode (ctx : emitterCtx) (block : Option Nat) : ast → Nat → emitterCtx
  | .mk _ children _ _ _ _ _, continuation =>
    let res := emitterCodeLines ctx block children
    irJump res.2 res.1 (some continuation)

/-- The statement loop of emitterCode. -/
def emitterCodeLines (ctx : emitterCtx) (block : Option Nat) :
    List ast → Option Nat × emitterCtx
  | [] => (block, ctx)
  | c :: rest =>
    let res := emitterLine ctx block c
    emitterCodeLines res.2 res.1 rest

end

/-- emitterBranch: allocate continuation, ifTrue and ifFalse blocks,
branch on the condition (the first child), lower both arms with the
same continuation, return the continuation. -/
def emitterBranch (ctx : emitterCtx) (block : Option Nat) (node : ast) :
    Option Nat × emitterCtx :=
  match node.children, node.l, node.r with
  | condNode :: _, some thenNode, some elseNode =>
    let (continuation, ctx1) := irBlockCreate ctx
    let (ifTrue, ctx2) := irBlockCreate ctx1
    let (ifFalse, ctx3) := irBlockCreate ctx2
    let ctx4 := emitterBranchOnValue ctx3 block condNode ifTrue ifFalse
    let ctx5 := emitterCode ctx4 (some ifTrue) thenNode continuation
    let ctx6 := emitterCode ctx5 (some ifFalse) elseNode continuation
    (some continuation, ctx6)
  | _, _, _ => (none, ctx)

/-- emitterLoop: allocate continuation, body and loopCheck blocks; the
loop is a do-while exactly when the l child is a code node (then the
entry edge is an unconditional jump to the body), else a while (entry
edge branches on the condition); the body is lowered with break target
continuation and continue target loopCheck, with continuation
loopCheck; the re-test edge branches from loopCheck on the condition;
returns continuation. -/
def emitterLoop (ctx : emitterCtx) (block : Option Nat) (node : ast) :
    Option Nat × emitterCtx :=
  match node.l, node.r with
  | some a, some b =>
    let (continuation, ctx1) := irBlockCreate ctx
    let (body, ctx2) := irBlockCreate ctx1
    let (loopCheck, ctx3) := irBlockCreate ctx2
    let isDo := a.tag = astCode
    let cond := if isDo then b else a
    let code := if isDo then a else b
    let ctx4 :=
      if isDo then irJump ctx3 block (some body)
      else emitterBranchOnValue ctx3 block cond body continuation
    let (oldBreakTo, ctx5) := emitterSetBreakTo ctx4 (some continuation)
    let (oldContinueTo, ctx6) := emitterSetContinueTo ctx5 (some loopCheck)
    let ctx7 := emitterCode ctx6 (some body) code loopCheck
    let ctx8 := { ctx7 with breakTo := oldBreakTo, continueTo := oldContinueTo }
    let ctx9 := emitterBranchOnValue ctx8 (some loopCheck) cond body continuation
    (some continuation, ctx9)
  | _, _ => (none, ctx)

/-- emitterIter: the C-style for loop: children are initializer,
condition and step, the l child is the body; the body is lowered with
break target continuation and continue target iterate, with
continuation iterate; the step and the re-test go into iterate;
returns continuation. -/
def emitterIter (ctx : emitterCtx) (block : Option Nat) (node : ast) :
    Option Nat × emitterCtx :=
  match node.children, node.l with
  | initNode :: condNode :: stepNode :: _, some codeNode =>
    let (continuation, ctx1) := irBlockCreate ctx
    let (body, ctx2) := irBlockCreate ctx1
    let (iterate, ctx3) := irBlockCreate ctx2
    let (block1, ctx4) :=
      if initNode.tag = astDecl then emitterDeclStmt ctx3 block initNode
      else emitterValueVoid ctx3 block initNode
    let ctx5 := emitterBranchOnValue ctx4 block1 condNode body continuation
    let (oldBreakTo, ctx6) := emitterSetBreakTo ctx5 (some continuation)
    let (oldContinueTo, ctx7) := emitterSetContinueTo ctx6 (some iterate)
    let ctx8 := emitterCode ctx7 (some body) codeNode iterate
    let ctx9 := { ctx8 with breakTo := oldBreakTo, continueTo := oldContinueTo }
    let (iterate1, ctx10) := emitterValueVoid ctx9 (some iterate) stepNode
    let ctx11 := emitterBranchOnValue ctx10 iterate1 condNode body continuation
    (some continuation, ctx11)
  | _, _ => (none, ctx)

/-- emitterFnImpl: mangle the label if needed, assign parameter
offsets starting at emitterParamBase, assign local offsets from 0 and
negate the final offset into the stack size, create entry and epilogue
blocks, install returnTo := epilogue, emit the prologue, lower the
body with continuation epilogue, emit the epilogue.  The updated
function symbol (in C mutated in place) is returned alongside the
context.  The C code dereferences a null body unconditionally; a
missing body is malformed input and is skipped here. -/
def emitterFnImpl (ctx : emitterCtx) (node : ast) : emitterCtx × sym :=
  match node with
  | .mk _ _ _ r symb _ _ =>
    let mangled := symb.label = 0
    let ctx0 := if mangled then emit ctx .mangleEv else ctx
    let label := if mangled then ctx.arch.mangledLabel else symb.label
    let children1 :=
      (emitterFnParams ctx.arch symb.children (emitterParamBase ctx.arch symb)).1
    let assigned :=
      emitterScopeAssignOffsets ctx.arch (symb.setChildren children1) 0
    let symb1 := assigned.1
    let stacksize := -assigned.2
    let (block, ctx1) := irBlockCreate ctx0
    let (epilogue, ctx2) := irBlockCreate ctx1
    let ctx3 := { ctx2 with returnTo := some epilogue }
    let ctx4 := emit ctx3 (.fnPrologue block label stacksize)
    let ctx5 :=
      match r with
      | some body => emitterCode ctx4 (some block) body epilogue
      | none => ctx4
    (emit ctx5 (.fnEpilogue epilogue), symb1)

mutual

/-- emitterModule: dispatch the top-level children: transitive
inclusion (astUsing, recursing into the r child when present),
function implementations, declarations, empties, and a debug report
for any other tag. -/
def emitterModule (ctx : emitterCtx) : ast → emitterCtx
  | .mk _ children _ _ _ _ _ => emitterModuleItems ctx children

/-- The child loop of emitterModule.  The C if-else chain on the tag
becomes a match with one arm per tag (the tags are pairwise distinct,
so the dispatch is the same); every tag the chain does not handle
lands in the debugErrorUnhandled arm. -/
def emitterModuleItems (ctx : emitterCtx) : List ast → emitterCtx
  | [] => ctx
  | .mk tag cs l r symb dt vop :: rest =>
    let ctx1 :=
      match tag with
      | astUsing =>
        match r with
        | some sub => emitterModule ctx sub
        | none => ctx
      | astFnImpl => (emitterFnImpl ctx (.mk tag cs l r symb dt vop)).1
      | astDecl => emitterDeclTop ctx (.mk tag cs l r symb dt vop)
      | astEmpty => emit ctx (.debugMsgEv "Empty")
      | t => emit ctx (.debugErrorUnhandledEv "emitterModule" (astTagGetStr t))
    emitterModuleItems ctx1 rest

end

/-- The entry point emitter: initialize, lower the module, hand the IR
context to irEmit for serialization. -/
def emitter (tree : ast) (arch : architecture) (raxAvailable : Bool) : emitterCtx :=
  let ctx := emitterInit arch raxAvailable
  let ctx1 := emitterModule ctx tree
  emit ctx1 .irEmitEv

/-! Auxiliary definitions used to state the claims. -/

mutual

/-- Sizes of the symId entries a scope walk visits, in traversal
order: an id child contributes its type size, a scope child its own
visited ids recursively, any other child nothing. -/
def idSizes (arch : architecture) : sym → List Nat
  | .mk _ _ cs _ _ => idSizesList arch cs

/-- The list version of idSizes. -/
def idSizesList (arch : architecture) : List sym → List Nat
  | [] => []
  | s :: rest =>
    (if s.tag = symTag.symScope then idSizes arch s
     else if s.tag = symTag.symId then [typeGetSize arch s.dt]
     else []) ++ idSizesList arch rest

end

mutual

/-- Offsets of the symId entries of a symbol tree, in traversal
order. -/
def idOffsets : sym → List Int
  | .mk _ _ cs _ _ => idOffsetsList cs

/-- The list version of idOffsets. -/
def idOffsetsList : List sym → List Int
  | [] => []
  | s :: rest =>
    (if s.tag = symTag.symScope then idOffsets s
     else if s.tag = symTag.symId then [s.offset]
     else []) ++ idOffsetsList rest

end

/-- Running offsets produced by repeatedly subtracting sizes from a
start offset: each element is the start minus the sizes up to and
including its own. -/
def offsetsFrom (offset : Int) : List Nat → List Int
  | [] => []
  | size :: rest => (offset - size) :: offsetsFrom (offset - size) rest

/-- Running offsets produced by handing out the current offset and
then adding the size: each element is the start plus the sizes before
its own. -/
def offsetsUpFrom (offset : Int) : List Nat → List Int
  | [] => []
  | size :: rest => offset :: offsetsUpFrom (offset + size) rest

mutual

/-- Every break and continue in a statement tree is syntactically
inside a loop or iter body.  The flag says whether the node already
sits inside a loop or iter body; the l and r children of a loop or
iter are its body (and condition), so they are checked with the flag
set, while list children are checked in the surrounding context. -/
def safeStmt (inLoop : Bool) : ast → Bool
  | .mk tag cs l r _ _ _ =>
    let lrFlag := if tag = astLoop ∨ tag = astIter then true else inLoop
    (if tag = astBreak ∨ tag = astContinue then inLoop else true) &&
    safeStmtList inLoop cs && safeStmtOpt lrFlag l && safeStmtOpt lrFlag r

/-- The list version of safeStmt. -/
def safeStmtList (inLoop : Bool) : List ast → Bool
  | [] => true
  | c :: rest => safeStmt inLoop c && safeStmtList inLoop rest

/-- The option version of safeStmt. -/
def safeStmtOpt (inLoop : Bool) : Option ast → Bool
  | none => true
  | some a => safeStmt inLoop a

end

/-- Every jump event in a trace has a non-null target. -/
def jumpTargetsDefined (events : List irEvent) : Bool :=
  events.all fun e =>
    match e with
    | .jump _ tgt => tgt.isSome
    | _ => true

/-- Whether a symbol is a parameter entry. -/
def isParam (s : sym) : Bool := s.tag = symTag.symParam

/-! Concrete inputs used by witnesses and counterexamples. -/

/-- A 4-byte-word architecture. -/
def arch0 : architecture := ⟨4, 77⟩

/-- A placeholder symbol for statement nodes that carry no symbol. -/
def sDummy : sym := .mk symTag.symTypedef (.basic 0) [] 0 0

/-- A placeholder operand annotation. -/
def oDummy : operand := .reg 3 4

/-- Build a statement node around the placeholders. -/
def stmt (t : astTag) (cs : List ast) (l r : Option ast) : ast :=
  .mk t cs l r sDummy (.basic 4) oDummy

/-- A bare break statement. -/
def breakStmt : ast := stmt astBreak [] none none

/-- A bare continue statement. -/
def continueStmt : ast := stmt astContinue [] none none

/-- A bare empty statement. -/
def emptyStmt : ast := stmt astEmpty [] none none

/-- A statement node with a tag the statement dispatch does not
handle. -/
def usingStmt : ast := stmt astUsing [] none none

/-- An expression used as a loop condition. -/
def condExpr : ast := stmt astLiteral [] none none

/-- A loop body consisting of a single break. -/
def whileBody : ast := stmt astCode [breakStmt] none none

/-- The loop: while (c) with a break in the body. -/
def whileBreakLoop : ast := stmt astLoop [] (some condExpr) (some whileBody)

/-- An iter body consisting of a single continue. -/
def iterBody : ast := stmt astCode [continueStmt] none none

/-- A C-style for node: children init, cond, step; l is the body. -/
def iterContinueLoop : ast :=
  stmt astIter [condExpr, condExpr, condExpr] (some iterBody) none

/-- A context in mid-function state: return target installed. -/
def ctxR : emitterCtx := ⟨arch0, some 9, none, none, 0, 8, true, []⟩

/-- A 12-byte expression (three words) being returned. -/
def bigExpr : ast := .mk astLiteral [] none none sDummy (.basic 12) (.reg 3 12)

/-- A return statement returning bigExpr. -/
def retBig : ast := .mk astReturn [] none (some bigExpr) sDummy (.basic 0) oDummy

/-- A function symbol with two params, one local and a large return. -/
def fnSymBig : sym :=
  .mk symTag.symId (.fn (.basic 12))
    [.mk symTag.symParam (.basic 4) [] 0 0,
     .mk symTag.symParam (.basic 8) [] 0 0,
     .mk symTag.symId (.basic 4) [] 0 0] 9 0

/-- A function implementation with an empty body. -/
def emptyFn : ast :=
  .mk astFnImpl [] none (some (stmt astCode [] none none))
    (.mk symTag.symId (.fn (.basic 0)) [] 9 0) (.basic 0) oDummy

/-! Frame discipline of the statement lowerers: the architecture, the
register oracle and the three jump targets come out of every statement
lowerer exactly as they went in, the block counter only grows, and the
event trace only grows (old events stay as a suffix). -/

/-- Relation between a context and any context a statement lowerer
produces from it. -/
structure ctxFrame (ctx ctx' : emitterCtx) : Prop where
  arch_eq : ctx'.arch = ctx.arch
  rax_eq : ctx'.raxAvailable = ctx.raxAvailable
  returnTo_eq : ctx'.returnTo = ctx.returnTo
  breakTo_eq : ctx'.breakTo = ctx.breakTo
  continueTo_eq : ctx'.continueTo = ctx.continueTo
  nextBlock_le : ctx.nextBlock ≤ ctx'.nextBlock
  events_suffix : ctx.events <:+ ctx'.events

theorem ctxFrame_refl (ctx : emitterCtx) : ctxFrame ctx ctx :=
  ⟨rfl, rfl, rfl, rfl, rfl, le_refl _, List.suffix_refl _⟩

theorem ctxFrame_trans {a b c : emitterCtx} (h1 : ctxFrame a b) (h2 : ctxFrame b c) :
    ctxFrame a c := by
  obtain ⟨a1, a2, a3, a4, a5, a6, a7⟩ := h1
  obtain ⟨b1, b2, b3, b4, b5, b6, b7⟩ := h2
  exact ⟨b1.trans a1, b2.trans a2, b3.trans a3, b4.trans a4, b5.trans a5,
    a6.trans b6, a7.trans b7⟩

theorem suffix_cons_of_suffix {α : Type} {l1 l2 : List α} (a : α) (h : l1 <:+ l2) :
    l1 <:+ a :: l2 :=
  h.trans (List.suffix_cons a l2)

theorem ctxFrame_emit (ctx : emitterCtx) (e : irEvent) : ctxFrame ctx (emit ctx e) :=
  ⟨rfl, rfl, rfl, rfl, rfl, le_refl _, List.suffix_cons e ctx.events⟩

theorem ctxFrame_blockCreate (ctx : emitterCtx) :
    ctxFrame ctx (irBlockCreate ctx).2 :=
  ⟨rfl, rfl, rfl, rfl, rfl, Nat.le_succ _, List.suffix_refl _⟩

/-- emitterReturn obeys the frame discipline. -/
theorem emitterReturn_frame (ctx : emitterCtx) (block : Option Nat) (node : ast) :
    ctxFrame ctx (emitterReturn ctx block node) := by
  unfold emitterReturn
  cases node.r with
  | none => exact ctxFrame_emit ctx _
  | some e =>
    by_cases hBig : ctx.arch.wordsize < typeGetSize ctx.arch e.dt <;>
      by_cases hRax : ctx.raxAvailable = true <;>
        simp only [emitterValueRet, regAlloc, regRequest, operandFree, regFree, emit,
          irJump, gt_iff_lt, Bool.not_eq_true, hBig, hRax, reduceIte, if_true,
          if_false] <;>
        (try split_ifs) <;>
        (constructor <;> simp [hRax, List.suffix_cons_iff])

mutual

/-- Frame discipline of the statement lowerer: emitterLine restores
the jump targets, keeps the architecture and the oracle, grows the
block counter and only appends events. -/
theorem emitterLine_frame : ∀ (a : ast) (ctx : emitterCtx) (block : Option Nat),
    ctxFrame ctx (emitterLine ctx block a).2
  | .mk astBranch (condN :: cs) (some thenN) (some elseN) s d v, ctx, block => by
    simp only [emitterLine, irBlockCreate, emitterBranchOnValue, emit]
    refine ctxFrame_trans ?_
      (ctxFrame_trans (emitterCode_frame thenN _ _ _) (emitterCode_frame elseN _ _ _))
    exact ⟨rfl, rfl, rfl, rfl, rfl,
      (by omega : ctx.nextBlock ≤ ctx.nextBlock + 1 + 1 + 1),
      by simp [List.suffix_cons_iff]⟩
  | .mk astBranch [] l r s d v, ctx, block => by
    simp only [emitterLine]
    exact ctxFrame_refl ctx
  | .mk astBranch (condN :: cs) none r s d v, ctx, block => by
    simp only [emitterLine]
    exact ctxFrame_refl ctx
  | .mk astBranch (condN :: cs) (some thenN) none s d v, ctx, block => by
    simp only [emitterLine]
    exact ctxFrame_refl ctx
  | .mk astLoop cs (some a) (some b) s d v, ctx, block => by
    simp only [emitterLine, irBlockCreate, emitterBranchOnValue, emit, irJump,
      emitterSetBreakTo, emitterSetContinueTo]
    by_cases hDo : a.tag = astCode <;> simp only [hDo, reduceIte]
    · obtain ⟨e1, e2, e3, e4, e5, e6, e7⟩ :=
        emitterCode_frame a (ctx.nextBlock + 1 + 1)
          ⟨ctx.arch, ctx.returnTo, some ctx.nextBlock, some (ctx.nextBlock + 1 + 1),
            ctx.nextBlock + 1 + 1 + 1, ctx.nextReg, ctx.raxAvailable,
            irEvent.jump block (some (ctx.nextBlock + 1)) :: ctx.events⟩
          (some (ctx.nextBlock + 1))
      refine ⟨e1, e2, e3, rfl, rfl,
        le_trans (by omega : ctx.nextBlock ≤ ctx.nextBlock + 1 + 1 + 1) e6, ?_⟩
      exact suffix_cons_of_suffix _ ((List.suffix_cons _ _).trans e7)
    · obtain ⟨e1, e2, e3, e4, e5, e6, e7⟩ :=
        emitterCode_frame b (ctx.nextBlock + 1 + 1)
          ⟨ctx.arch, ctx.returnTo, some ctx.nextBlock, some (ctx.nextBlock + 1 + 1),
            ctx.nextBlock + 1 + 1 + 1, ctx.nextReg, ctx.raxAvailable,
            irEvent.branchOnValue block (ctx.nextBlock + 1) ctx.nextBlock :: ctx.events⟩
          (some (ctx.nextBlock + 1))
      refine ⟨e1, e2, e3, rfl, rfl,
        le_trans (by omega : ctx.nextBlock ≤ ctx.nextBlock + 1 + 1 + 1) e6, ?_⟩
      exact suffix_cons_of_suffix _ ((List.suffix_cons _ _).trans e7)
  | .mk astLoop cs none r s d v, ctx, block => by
    simp only [emitterLine]
    exact ctxFrame_refl ctx
  | .mk astLoop cs (some a) none s d v, ctx, block => by
    simp only [emitterLine]
    exact ctxFrame_refl ctx
  | .mk astIter (initN :: condN :: stepN :: cs) (some codeN) r s d v, ctx, block => by
    simp only [emitterLine, irBlockCreate, emitterBranchOnValue, emit, irJump,
      emitterSetBreakTo, emitterSetContinueTo, emitterDeclStmt, emitterValueVoid]
    by_cases hInit : initN.tag = astDecl <;> simp only [hInit, reduceIte]
    · obtain ⟨e1, e2, e3, e4, e5, e6, e7⟩ :=
        emitterCode_frame codeN (ctx.nextBlock + 1 + 1)
          ⟨ctx.arch, ctx.returnTo, some ctx.nextBlock, some (ctx.nextBlock + 1 + 1),
            ctx.nextBlock + 1 + 1 + 1, ctx.nextReg, ctx.raxAvailable,
            irEvent.branchOnValue block (ctx.nextBlock + 1) ctx.nextBlock ::
              irEvent.declLowered block :: ctx.events⟩
          (some (ctx.nextBlock + 1))
      refine ⟨e1, e2, e3, rfl, rfl,
        le_trans (by omega : ctx.nextBlock ≤ ctx.nextBlock + 1 + 1 + 1) e6, ?_⟩
      refine suffix_cons_of_suffix _ (suffix_cons_of_suffix _ ?_)
      exact (suffix_cons_of_suffix _ (List.suffix_cons _ _)).trans e7
    · obtain ⟨e1, e2, e3, e4, e5, e6, e7⟩ :=
        emitterCode_frame codeN (ctx.nextBlock + 1 + 1)
          ⟨ctx.arch, ctx.returnTo, some ctx.nextBlock, some (ctx.nextBlock + 1 + 1),
            ctx.nextBlock + 1 + 1 + 1, ctx.nextReg, ctx.raxAvailable,
            irEvent.branchOnValue block (ctx.nextBlock + 1) ctx.nextBlock ::
              irEvent.evalValue block :: ctx.events⟩
          (some (ctx.nextBlock + 1))
      refine ⟨e1, e2, e3, rfl, rfl,
        le_trans (by omega : ctx.nextBlock ≤ ctx.nextBlock + 1 + 1 + 1) e6, ?_⟩
      refine suffix_cons_of_suffix _ (suffix_cons_of_suffix _ ?_)
      exact (suffix_cons_of_suffix _ (List.suffix_cons _ _)).trans e7
  | .mk astIter [] l r s d v, ctx, block => by
    simp only [emitterLine]
    exact ctxFrame_refl ctx
  | .mk astIter [initN] l r s d v, ctx, block => by
    simp only [emitterLine]
    exact ctxFrame_refl ctx
  | .mk astIter [initN, condN] l r s d v, ctx, block => by
    simp only [emitterLine]
    exact ctxFrame_refl ctx
  | .mk astIter (initN :: condN :: stepN :: cs) none r s d v, ctx, block => by
    simp only [emitterLine]
    exact ctxFrame_refl ctx
  | .mk astCode cs l r s d v, ctx, block => by
    simp only [emitterLine, irBlockCreate, irJump, emit]
    obtain ⟨e1, e2, e3, e4, e5, e6, e7⟩ :=
      emitterCodeLines_frame cs ⟨ctx.arch, ctx.returnTo, ctx.breakTo, ctx.continueTo,
        ctx.nextBlock + 1, ctx.nextReg, ctx.raxAvailable, ctx.events⟩ block
    exact ⟨e1, e2, e3, e4, e5, le_trans (Nat.le_succ _) e6, suffix_cons_of_suffix _ e7⟩
  | .mk astReturn cs l r s d v, ctx, block => by
    simp only [emitterLine, irBlockCreate]
    obtain ⟨e1, e2, e3, e4, e5, e6, e7⟩ :=
      emitterReturn_frame ctx block (.mk astReturn cs l r s d v)
    exact ⟨e1, e2, e3, e4, e5, le_trans e6 (Nat.le_succ _), e7⟩
  | .mk astBreak cs l r s d v, ctx, block => by
    simp only [emitterLine, irBlockCreate, irJump, emit]
    exact ⟨rfl, rfl, rfl, rfl, rfl, Nat.le_succ _, List.suffix_cons _ _⟩
  | .mk astContinue cs l r s d v, ctx, block => by
    simp only [emitterLine, irBlockCreate, irJump, emit]
    exact ⟨rfl, rfl, rfl, rfl, rfl, Nat.le_succ _, List.suffix_cons _ _⟩
  | .mk astDecl cs l r s d v, ctx, block => by
    simp only [emitterLine, emitterDeclStmt, emit]
    exact ⟨rfl, rfl, rfl, rfl, rfl, le_refl _, List.suffix_cons _ _⟩
  | .mk astLiteral cs l r s d v, ctx, block => by
    simp only [emitterLine, emitterValueVoid, emit]
    exact ⟨rfl, rfl, rfl, rfl, rfl, le_refl _, List.suffix_cons _ _⟩
  | .mk astBOP cs l r s d v, ctx, block => by
    simp only [emitterLine, emitterValueVoid, emit]
    exact ⟨rfl, rfl, rfl, rfl, rfl, le_refl _, List.suffix_cons _ _⟩
  | .mk astCall cs l r s d v, ctx, block => by
    simp only [emitterLine, emitterValueVoid, emit]
    exact ⟨rfl, rfl, rfl, rfl, rfl, le_refl _, List.suffix_cons _ _⟩
  | .mk astEmpty cs l r s d v, ctx, block => by
    simp only [emitterLine]
    exact ctxFrame_refl ctx
  | .mk astUsing cs l r s d v, ctx, block => by
    simp only [emitterLine, emit]
    exact ⟨rfl, rfl, rfl, rfl, rfl, le_refl _, List.suffix_cons _ _⟩
  | .mk astFnImpl cs l r s d v, ctx, block => by
    simp only [emitterLine, emit]
    exact ⟨rfl, rfl, rfl, rfl, rfl, le_refl _, List.suffix_cons _ _⟩

/-- Frame discipline of emitterCode. -/
theorem emitterCode_frame : ∀ (a : ast) (cont : Nat) (ctx : emitterCtx) (block : Option Nat),
    ctxFrame ctx (emitterCode ctx block a cont)
  | .mk t cs l r s d v, cont, ctx, block => by
    simp only [emitterCode, irJump, emit]
    obtain ⟨e1, e2, e3, e4, e5, e6, e7⟩ := emitterCodeLines_frame cs ctx block
    exact ⟨e1, e2, e3, e4, e5, e6, suffix_cons_of_suffix _ e7⟩

/-- Frame discipline of the statement loop emitterCodeLines. -/
theorem emitterCodeLines_frame : ∀ (cs : List ast) (ctx : emitterCtx) (block : Option Nat),
    ctxFrame ctx (emitterCodeLines ctx block cs).2
  | [], ctx, block => ctxFrame_refl ctx
  | c :: rest, ctx, block => by
    simp only [emitterCodeLines]
    exact ctxFrame_trans (emitterLine_frame c ctx block)
      (emitterCodeLines_frame rest (emitterLine ctx block c).2 (emitterLine ctx block c).1)

end

/-! Small computation lemmas. -/

@[simp]
theorem sym_setOffset_tag (s : sym) (o : Int) : (s.setOffset o).tag = s.tag := by
  cases s <;> rfl

@[simp]
theorem sym_setOffset_dt (s : sym) (o : Int) : (s.setOffset o).dt = s.dt := by
  cases s <;> rfl

@[simp]
theorem sym_setOffset_offset (s : sym) (o : Int) : (s.setOffset o).offset = o := by
  cases s <;> rfl

@[simp]
theorem scopeAssign_tag (arch : architecture) (s : sym) (off : Int) :
    (emitterScopeAssignOffsets arch s off).1.tag = s.tag := by
  cases s
  simp only [emitterScopeAssignOffsets, sym.tag]

/-! Dispatch agreement: the inlined arms of emitterLine are exactly
the standalone lowerers. -/

/-- The astBranch arm of emitterLine is emitterBranch. -/
theorem emitterLine_branch (ctx : emitterCtx) (block : Option Nat) (node : ast)
    (h : node.tag = astBranch) :
    emitterLine ctx block node = emitterBranch ctx block node := by
  obtain ⟨tag, cs, l, r, s, d, v⟩ := node
  simp only [ast.tag] at h
  subst h
  rcases cs with _ | ⟨c, cs⟩ <;> rcases l with _ | a <;> rcases r with _ | b <;> rfl

/-- The astLoop arm of emitterLine is emitterLoop. -/
theorem emitterLine_loop (ctx : emitterCtx) (block : Option Nat) (node : ast)
    (h : node.tag = astLoop) :
    emitterLine ctx block node = emitterLoop ctx block node := by
  obtain ⟨tag, cs, l, r, s, d, v⟩ := node
  simp only [ast.tag] at h
  subst h
  rcases l with _ | a <;> rcases r with _ | b
  · rfl
  · rfl
  · rfl
  · by_cases hDo : a.tag = astCode <;>
      simp [emitterLine, emitterLoop, hDo, ast.l, ast.r]

/-- The astIter arm of emitterLine is emitterIter. -/
theorem emitterLine_iter (ctx : emitterCtx) (block : Option Nat) (node : ast)
    (h : node.tag = astIter) :
    emitterLine ctx block node = emitterIter ctx block node := by
  obtain ⟨tag, cs, l, r, s, d, v⟩ := node
  simp only [ast.tag] at h
  subst h
  rcases cs with _ | ⟨c1, _ | ⟨c2, _ | ⟨c3, cs⟩⟩⟩ <;> rcases l with _ | a <;> rfl

/-- The astCode arm of emitterLine creates a fresh continuation and
hands the node to emitterCode. -/
theorem emitterLine_code (ctx : emitterCtx) (block : Option Nat) (node : ast)
    (h : node.tag = astCode) :
    emitterLine ctx block node =
      (some (irBlockCreate ctx).1,
        emitterCode (irBlockCreate ctx).2 block node (irBlockCreate ctx).1) := by
  obtain ⟨tag, cs, l, r, s, d, v⟩ := node
  simp only [ast.tag] at h
  subst h
  rfl

/-- emitterLine hands a node to the external expression lowerer (as a
void-requested statement expression) exactly when its tag satisfies
astIsValueTag. -/
theorem emitterLine_value_dispatch (ctx : emitterCtx) (block : Option Nat) (node : ast)
    (h : astIsValueTag node.tag = true) :
    emitterLine ctx block node = emitterValueVoid ctx block node := by
  obtain ⟨tag, cs, l, r, s, d, v⟩ := node
  simp only [ast.tag] at h
  cases tag <;> simp_all [astIsValueTag] <;> rfl

/-! Characterization of the scope offset assigner and of the
parameter pass. -/

theorem offsetsFrom_append (off : Int) (xs ys : List Nat) :
    offsetsFrom off (xs ++ ys) =
      offsetsFrom off xs ++ offsetsFrom (off - xs.sum) ys := by
  induction xs generalizing off with
  | nil => simp [offsetsFrom]
  | cons x xs ih =>
    simp only [List.cons_append, offsetsFrom, List.sum_cons]
    have h2 : off - (x : Int) - (xs.sum : Int) = off - ((x + xs.sum : Nat) : Int) := by
      push_cast; ring
    refine congrArg (List.cons _) ((ih (off - (x : Int))).trans ?_)
    rw [h2]

mutual

/-- The scope offset assigner returns the start offset minus the total
size of all ids it visits. -/
theorem scopeAssign_final : ∀ (s : sym) (arch : architecture) (off : Int),
    (emitterScopeAssignOffsets arch s off).2 = off - ((idSizes arch s).sum : Int)
  | .mk t d cs lb o, arch, off => by
    simp only [emitterScopeAssignOffsets, idSizes]
    exact scopeAssignList_final cs arch off

/-- List version of scopeAssign_final. -/
theorem scopeAssignList_final : ∀ (cs : List sym) (arch : architecture) (off : Int),
    (scopeAssignList arch cs off).2 = off - ((idSizesList arch cs).sum : Int)
  | [], arch, off => by simp [scopeAssignList, idSizesList]
  | s :: rest, arch, off => by
    by_cases h1 : s.tag = symTag.symScope
    · simp [scopeAssignList, idSizesList, h1,
        scopeAssign_final s arch off, scopeAssignList_final rest arch _,
        List.sum_append] <;> omega
    · by_cases h2 : s.tag = symTag.symId
      · simp [scopeAssignList, idSizesList, h1, h2,
          scopeAssignList_final rest arch _] <;> omega
      · simp [scopeAssignList, idSizesList, h1, h2,
          scopeAssignList_final rest arch _]

end

mutual

/-- The offsets the scope offset assigner stores into the visited ids,
in traversal order, are the running decrements of the start offset by
the id sizes: each id receives the start offset minus the sizes of all
ids up to and including itself. -/
theorem scopeAssign_offsets : ∀ (s : sym) (arch : architecture) (off : Int),
    idOffsets (emitterScopeAssignOffsets arch s off).1 =
      offsetsFrom off (idSizes arch s)
  | .mk t d cs lb o, arch, off => by
    simp only [emitterScopeAssignOffsets, idOffsets, idSizes]
    exact scopeAssignList_offsets cs arch off

/-- List version of scopeAssign_offsets. -/
theorem scopeAssignList_offsets : ∀ (cs : List sym) (arch : architecture) (off : Int),
    idOffsetsList (scopeAssignList arch cs off).1 =
      offsetsFrom off (idSizesList arch cs)
  | [], arch, off => by simp [scopeAssignList, idOffsetsList, idSizesList, offsetsFrom]
  | s :: rest, arch, off => by
    by_cases h1 : s.tag = symTag.symScope
    · simp only [scopeAssignList, idSizesList, idOffsetsList, h1, reduceIte,
        scopeAssign_tag, scopeAssign_offsets s arch off,
        scopeAssignList_offsets rest arch _, scopeAssign_final s arch off,
        offsetsFrom_append]
    · by_cases h2 : s.tag = symTag.symId
      · simp [scopeAssignList, idSizesList, idOffsetsList, h1, h2,
          sym_setOffset_tag, sym_setOffset_offset,
          scopeAssignList_offsets rest arch _, offsetsFrom]
      · simp [scopeAssignList, idSizesList, idOffsetsList, h1, h2,
          scopeAssignList_offsets rest arch _]

end

/-- The scope offset assigner keeps every child tag, and returns any
child that is neither a scope nor an id entirely unchanged. -/
theorem scopeAssignList_untouched (arch : architecture) :
    ∀ (cs : List sym) (off : Int),
    List.Forall₂ (fun s s1 => s1.tag = s.tag ∧
      (s.tag ≠ symTag.symScope → s.tag ≠ symTag.symId → s1 = s))
      cs (scopeAssignList arch cs off).1 := by
  intro cs
  induction cs with
  | nil => intro off; simp [scopeAssignList]
  | cons s rest ih =>
    intro off
    by_cases h1 : s.tag = symTag.symScope
    · simp only [scopeAssignList, h1, reduceIte]
      exact List.Forall₂.cons ⟨by simp [h1], fun hn _ => absurd h1 hn⟩ (ih _)
    · by_cases h2 : s.tag = symTag.symId
      · simp only [scopeAssignList, h1, h2, reduceIte]
        exact List.Forall₂.cons ⟨by simp, fun _ hn => absurd h2 hn⟩ (ih _)
      · simp only [scopeAssignList, h1, h2, reduceIte]
        exact List.Forall₂.cons ⟨rfl, fun _ _ => rfl⟩ (ih _)

/-- The parameter pass stops at the first non-param child and returns
the start offset plus the sizes of all params before that point. -/
theorem fnParams_final (arch : architecture) :
    ∀ (cs : List sym) (off : Int),
    (emitterFnParams arch cs off).2 =
      off + ((cs.takeWhile isParam).map fun s => (typeGetSize arch s.dt : Int)).sum := by
  intro cs
  induction cs with
  | nil => intro off; simp [emitterFnParams, List.takeWhile]
  | cons s rest ih =>
    intro off
    by_cases hp : s.tag = symTag.symParam
    · simp only [emitterFnParams, hp, reduceIte, ne_eq, not_true_eq_false,
        List.takeWhile_cons_of_pos (by simp [isParam, hp] : isParam s = true),
        List.map_cons, List.sum_cons, ih]
      ring
    · simp only [emitterFnParams, hp, reduceIte, ne_eq, not_false_eq_true,
        List.takeWhile_cons_of_neg (by simp [isParam, hp] : ¬isParam s = true),
        List.map_nil, List.sum_nil, add_zero]

/-- The offsets stored into the leading params are the running
increments of the start offset: each param gets the start offset plus
the sizes of the params before it. -/
theorem fnParams_offsets (arch : architecture) :
    ∀ (cs : List sym) (off : Int),
    ((emitterFnParams arch cs off).1.take (cs.takeWhile isParam).length).map sym.offset
      = offsetsUpFrom off ((cs.takeWhile isParam).map fun s => typeGetSize arch s.dt) := by
  intro cs
  induction cs with
  | nil => intro off; simp [emitterFnParams, offsetsUpFrom]
  | cons s rest ih =>
    intro off
    by_cases hp : s.tag = symTag.symParam
    · simp only [emitterFnParams, hp, reduceIte, ne_eq, not_true_eq_false,
        List.takeWhile_cons_of_pos (by simp [isParam, hp] : isParam s = true),
        List.length_cons, List.take_succ_cons, List.map_cons, sym_setOffset_offset,
        offsetsUpFrom, ih]
    · simp only [emitterFnParams, hp, reduceIte, ne_eq, not_false_eq_true,
        List.takeWhile_cons_of_neg (by simp [isParam, hp] : ¬isParam s = true),
        List.length_nil, List.take_zero, List.map_nil, offsetsUpFrom]

/-- Everything from the first non-param child on is returned
unchanged by the parameter pass. -/
theorem fnParams_tail (arch : architecture) :
    ∀ (cs : List sym) (off : Int),
    (emitterFnParams arch cs off).1.drop (cs.takeWhile isParam).length
      = cs.drop (cs.takeWhile isParam).length := by
  intro cs
  induction cs with
  | nil => intro off; simp [emitterFnParams]
  | cons s rest ih =>
    intro off
    by_cases hp : s.tag = symTag.symParam
    · simp only [emitterFnParams, hp, reduceIte, ne_eq, not_true_eq_false,
        List.takeWhile_cons_of_pos (by simp [isParam, hp] : isParam s = true),
        List.length_cons, List.drop_succ_cons, ih]
    · simp only [emitterFnParams, hp, reduceIte, ne_eq, not_false_eq_true,
        List.takeWhile_cons_of_neg (by simp [isParam, hp] : ¬isParam s = true),
        List.length_nil, List.drop_zero]

/-! The jump-target invariant: when the statement tree keeps every
break and continue inside a loop or iter body and the return target is
installed, every jump the statement lowerers emit has a non-null
target. -/

/-- emitterReturn only emits jumps with non-null targets when the
return target is installed. -/
theorem emitterReturn_jumpSafe (ctx : emitterCtx) (block : Option Nat) (node : ast)
    (hret : ctx.returnTo.isSome = true)
    (hev : jumpTargetsDefined ctx.events = true) :
    jumpTargetsDefined (emitterReturn ctx block node).events = true := by
  unfold emitterReturn
  cases node.r with
  | none => simp_all [jumpTargetsDefined, irJump, emit]
  | some e =>
    by_cases hBig : ctx.arch.wordsize < typeGetSize ctx.arch e.dt <;>
      by_cases hRax : ctx.raxAvailable = true <;>
        simp only [emitterValueRet, regAlloc, regRequest, operandFree, regFree, emit,
          irJump, gt_iff_lt, Bool.not_eq_true, hBig, hRax, reduceIte, if_true,
          if_false] <;>
        (try split_ifs) <;>
        simp_all [jumpTargetsDefined]

mutual

/-- If every break and continue in the statement is inside a loop or
iter body (relative to the current jump targets), the return target is
installed, and every jump already emitted has a non-null target, then
every jump emitted by emitterLine has a non-null target. -/
theorem emitterLine_jumpSafe : ∀ (a : ast) (ctx : emitterCtx) (block : Option Nat),
    ctx.returnTo.isSome = true →
    safeStmt (ctx.breakTo.isSome && ctx.continueTo.isSome) a = true →
    jumpTargetsDefined ctx.events = true →
    jumpTargetsDefined (emitterLine ctx block a).2.events = true
  | .mk astBranch (condN :: cs) (some thenN) (some elseN) s d v, ctx, block,
      hret, hsafe, hev => by
    simp only [safeStmt, safeStmtOpt, Bool.and_eq_true, reduceIte] at hsafe
    obtain ⟨⟨⟨-, -⟩, hthen⟩, helse⟩ := hsafe
    simp only [emitterLine, irBlockCreate, emitterBranchOnValue, emit]
    apply emitterCode_jumpSafe elseN
    · exact (congrArg Option.isSome (emitterCode_frame thenN _ _ _).returnTo_eq).trans hret
    · rw [(emitterCode_frame thenN _ _ _).breakTo_eq,
        (emitterCode_frame thenN _ _ _).continueTo_eq]
      exact helse
    · apply emitterCode_jumpSafe thenN
      · exact hret
      · exact hthen
      · simp_all [jumpTargetsDefined]
  | .mk astBranch [] l r s d v, ctx, block, hret, hsafe, hev => by
    simpa only [emitterLine] using hev
  | .mk astBranch (condN :: cs) none r s d v, ctx, block, hret, hsafe, hev => by
    simpa only [emitterLine] using hev
  | .mk astBranch (condN :: cs) (some thenN) none s d v, ctx, block, hret, hsafe, hev => by
    simpa only [emitterLine] using hev
  | .mk astLoop cs (some a) (some b) s d v, ctx, block, hret, hsafe, hev => by
    simp only [safeStmt, safeStmtOpt, Bool.and_eq_true, reduceIte] at hsafe
    obtain ⟨⟨⟨-, -⟩, ha⟩, hb⟩ := hsafe
    simp only [emitterLine, irBlockCreate, emitterBranchOnValue, emit, irJump,
      emitterSetBreakTo, emitterSetContinueTo]
    by_cases hDo : a.tag = astCode <;> simp only [hDo, reduceIte] <;>
      simp only [jumpTargetsDefined, List.all_cons, Bool.and_eq_true] <;>
      refine ⟨by trivial, ?_⟩
    · have := emitterCode_jumpSafe a
        ⟨ctx.arch, ctx.returnTo, some ctx.nextBlock, some (ctx.nextBlock + 1 + 1),
          ctx.nextBlock + 1 + 1 + 1, ctx.nextReg, ctx.raxAvailable,
          irEvent.jump block (some (ctx.nextBlock + 1)) :: ctx.events⟩
        (some (ctx.nextBlock + 1)) (ctx.nextBlock + 1 + 1) hret ha
        (by simp_all [jumpTargetsDefined])
      simpa only [jumpTargetsDefined] using this
    · have := emitterCode_jumpSafe b
        ⟨ctx.arch, ctx.returnTo, some ctx.nextBlock, some (ctx.nextBlock + 1 + 1),
          ctx.nextBlock + 1 + 1 + 1, ctx.nextReg, ctx.raxAvailable,
          irEvent.branchOnValue block (ctx.nextBlock + 1) ctx.nextBlock :: ctx.events⟩
        (some (ctx.nextBlock + 1)) (ctx.nextBlock + 1 + 1) hret hb
        (by simp_all [jumpTargetsDefined])
      simpa only [jumpTargetsDefined] using this
  | .mk astLoop cs none r s d v, ctx, block, hret, hsafe, hev => by
    simpa only [emitterLine] using hev
  | .mk astLoop cs (some a) none s d v, ctx, block, hret, hsafe, hev => by
    simpa only [emitterLine] using hev
  | .mk astIter (initN :: condN :: stepN :: cs) (some codeN) r s d v, ctx, block,
      hret, hsafe, hev => by
    simp only [safeStmt, safeStmtOpt, Bool.and_eq_true, reduceIte] at hsafe
    obtain ⟨⟨⟨-, -⟩, hcode⟩, -⟩ := hsafe
    simp only [emitterLine, irBlockCreate, emitterBranchOnValue, emit, irJump,
      emitterSetBreakTo, emitterSetContinueTo, emitterDeclStmt, emitterValueVoid]
    by_cases hInit : initN.tag = astDecl <;> simp only [hInit, reduceIte] <;>
      simp only [jumpTargetsDefined, List.all_cons, Bool.and_eq_true] <;>
      refine ⟨by trivial, by trivial, ?_⟩
    · have := emitterCode_jumpSafe codeN
        ⟨ctx.arch, ctx.returnTo, some ctx.nextBlock, some (ctx.nextBlock + 1 + 1),
          ctx.nextBlock + 1 + 1 + 1, ctx.nextReg, ctx.raxAvailable,
          irEvent.branchOnValue block (ctx.nextBlock + 1) ctx.nextBlock ::
            irEvent.declLowered block :: ctx.events⟩
        (some (ctx.nextBlock + 1)) (ctx.nextBlock + 1 + 1) hret hcode
        (by simp_all [jumpTargetsDefined])
      simpa only [jumpTargetsDefined] using this
    · have := emitterCode_jumpSafe codeN
        ⟨ctx.arch, ctx.returnTo, some ctx.nextBlock, some (ctx.nextBlock + 1 + 1),
          ctx.nextBlock + 1 + 1 + 1, ctx.nextReg, ctx.raxAvailable,
          irEvent.branchOnValue block (ctx.nextBlock + 1) ctx.nextBlock ::
            irEvent.evalValue block :: ctx.events⟩
        (some (ctx.nextBlock + 1)) (ctx.nextBlock + 1 + 1) hret hcode
        (by simp_all [jumpTargetsDefined])
      simpa only [jumpTargetsDefined] using this
  | .mk astIter [] l r s d v, ctx, block, hret, hsafe, hev => by
    simpa only [emitterLine] using hev
  | .mk astIter [initN] l r s d v, ctx, block, hret, hsafe, hev => by
    simpa only [emitterLine] using hev
  | .mk astIter [initN, condN] l r s d v, ctx, block, hret, hsafe, hev => by
    simpa only [emitterLine] using hev
  | .mk astIter (initN :: condN :: stepN :: cs) none r s d v, ctx, block,
      hret, hsafe, hev => by
    simpa only [emitterLine] using hev
  | .mk astCode cs l r s d v, ctx, block, hret, hsafe, hev => by
    simp only [safeStmt, safeStmtOpt, Bool.and_eq_true, reduceIte] at hsafe
    obtain ⟨⟨⟨-, hcs⟩, -⟩, -⟩ := hsafe
    simp only [emitterLine, irBlockCreate, irJump, emit, jumpTargetsDefined,
      List.all_cons, Bool.and_eq_true]
    refine ⟨by trivial, ?_⟩
    have := emitterCodeLines_jumpSafe cs
      ⟨ctx.arch, ctx.returnTo, ctx.breakTo, ctx.continueTo,
        ctx.nextBlock + 1, ctx.nextReg, ctx.raxAvailable, ctx.events⟩ block hret hcs hev
    simpa only [jumpTargetsDefined] using this
  | .mk astReturn cs l r s d v, ctx, block, hret, hsafe, hev => by
    simp only [emitterLine, irBlockCreate]
    exact emitterReturn_jumpSafe ctx block (.mk astReturn cs l r s d v) hret hev
  | .mk astBreak cs l r s d v, ctx, block, hret, hsafe, hev => by
    simp only [emitterLine, irJump, emit, irBlockCreate, jumpTargetsDefined,
      List.all_cons, Bool.and_eq_true]
    refine ⟨?_, by simpa [jumpTargetsDefined] using hev⟩
    rcases hB : ctx.breakTo with _ | bb
    · simp [safeStmt, hB] at hsafe
    · simp
  | .mk astContinue cs l r s d v, ctx, block, hret, hsafe, hev => by
    simp only [emitterLine, irJump, emit, irBlockCreate, jumpTargetsDefined,
      List.all_cons, Bool.and_eq_true]
    refine ⟨?_, by simpa [jumpTargetsDefined] using hev⟩
    rcases hC : ctx.continueTo with _ | cc
    · simp [safeStmt, hC] at hsafe
    · simp
  | .mk astDecl cs l r s d v, ctx, block, hret, hsafe, hev => by
    simp_all [emitterLine, emitterDeclStmt, emit, jumpTargetsDefined]
  | .mk astLiteral cs l r s d v, ctx, block, hret, hsafe, hev => by
    simp_all [emitterLine, emitterValueVoid, emit, jumpTargetsDefined]
  | .mk astBOP cs l r s d v, ctx, block, hret, hsafe, hev => by
    simp_all [emitterLine, emitterValueVoid, emit, jumpTargetsDefined]
  | .mk astCall cs l r s d v, ctx, block, hret, hsafe, hev => by
    simp_all [emitterLine, emitterValueVoid, emit, jumpTargetsDefined]
  | .mk astEmpty cs l r s d v, ctx, block, hret, hsafe, hev => by
    simpa only [emitterLine] using hev
  | .mk astUsing cs l r s d v, ctx, block, hret, hsafe, hev => by
    simp_all [emitterLine, emit, jumpTargetsDefined]
  | .mk astFnImpl cs l r s d v, ctx, block, hret, hsafe, hev => by
    simp_all [emitterLine, emit, jumpTargetsDefined]

/-- emitterCode version of the jump-target invariant; the final jump
into the supplied continuation always has a real target. -/
theorem emitterCode_jumpSafe : ∀ (a : ast) (ctx : emitterCtx) (block : Option Nat)
    (cont : Nat),
    ctx.returnTo.isSome = true →
    safeStmt (ctx.breakTo.isSome && ctx.continueTo.isSome) a = true →
    jumpTargetsDefined ctx.events = true →
    jumpTargetsDefined (emitterCode ctx block a cont).events = true
  | .mk t cs l r s d v, ctx, block, cont, hret, hsafe, hev => by
    simp only [safeStmt, Bool.and_eq_true] at hsafe
    obtain ⟨⟨⟨-, hcs⟩, -⟩, -⟩ := hsafe
    simp only [emitterCode, irJump, emit, jumpTargetsDefined, List.all_cons,
      Bool.and_eq_true]
    refine ⟨by trivial, ?_⟩
    have := emitterCodeLines_jumpSafe cs ctx block hret hcs hev
    simpa only [jumpTargetsDefined] using this

/-- emitterCodeLines version of the jump-target invariant. -/
theorem emitterCodeLines_jumpSafe : ∀ (cs : List ast) (ctx : emitterCtx) (block : Option Nat),
    ctx.returnTo.isSome = true →
    safeStmtList (ctx.breakTo.isSome && ctx.continueTo.isSome) cs = true →
    jumpTargetsDefined ctx.events = true →
    jumpTargetsDefined (emitterCodeLines ctx block cs).2.events = true
  | [], ctx, block, hret, hsafe, hev => by simpa only [emitterCodeLines] using hev
  | c :: rest, ctx, block, hret, hsafe, hev => by
    simp only [safeStmtList, Bool.and_eq_true] at hsafe
    obtain ⟨hc, hrest⟩ := hsafe
    simp only [emitterCodeLines]
    apply emitterCodeLines_jumpSafe rest
    · exact (congrArg Option.isSome (emitterLine_frame c ctx block).returnTo_eq).trans hret
    · rw [(emitterLine_frame c ctx block).breakTo_eq,
        (emitterLine_frame c ctx block).continueTo_eq]
      exact hrest
    · exact emitterLine_jumpSafe c ctx block hret hc hev

end

/-! Event-trace helpers used to tie break and continue to the
enclosing loop. -/

/-- The last event emitterCode emits is the unconditional jump into
the supplied continuation. -/
theorem emitterCode_head (ctx : emitterCtx) (block : Option Nat) (node : ast)
    (cont : Nat) :
    ∃ src, (emitterCode ctx block node cont).events.head? =
      some (irEvent.jump src (some cont)) := by
  cases node
  exact ⟨_, rfl⟩

/-- The last event emitterReturn emits is the unconditional jump to
the return target. -/
theorem emitterReturn_head (ctx : emitterCtx) (block : Option Nat) (node : ast) :
    (emitterReturn ctx block node).events.head? =
      some (irEvent.jump block ctx.returnTo) := by
  unfold emitterReturn
  cases node.r with
  | none => rfl
  | some e =>
    by_cases hBig : ctx.arch.wordsize < typeGetSize ctx.arch e.dt <;>
      by_cases hRax : ctx.raxAvailable = true <;>
        simp only [emitterValueRet, regAlloc, regRequest, operandFree, regFree, emit,
          irJump, gt_iff_lt, Bool.not_eq_true, hBig, hRax, reduceIte, if_true,
          if_false] <;>
        (try split_ifs) <;> rfl

/-- Lowering a statement list one of whose members is a break emits a
jump to the current break target. -/
theorem codeLines_break_jump (cs : List ast) :
    ∀ (ctx : emitterCtx) (block : Option Nat),
    (∃ c ∈ cs, c.tag = astBreak) →
    ∃ src, irEvent.jump src ctx.breakTo ∈ (emitterCodeLines ctx block cs).2.events := by
  induction cs with
  | nil => intro ctx block h; simp at h
  | cons c rest ih =>
    intro ctx block h
    rcases h with ⟨c0, hc0mem, hc0tag⟩
    rcases List.mem_cons.mp hc0mem with hEq | hMem
    · subst hEq
      obtain ⟨tg, cs', l', r', s', d', v'⟩ := c0
      simp only [ast.tag] at hc0tag
      subst hc0tag
      refine ⟨block, ?_⟩
      simp only [emitterCodeLines]
      apply (emitterCodeLines_frame rest _ _).events_suffix.subset
      simp [emitterLine, irJump, emit, irBlockCreate]
    · have hrest := ih (emitterLine ctx block c).2 (emitterLine ctx block c).1
        ⟨c0, hMem, hc0tag⟩
      rw [(emitterLine_frame c ctx block).breakTo_eq] at hrest
      simpa only [emitterCodeLines] using hrest

/-- Lowering a statement list one of whose members is a continue emits
a jump to the current continue target. -/
theorem codeLines_continue_jump (cs : List ast) :
    ∀ (ctx : emitterCtx) (block : Option Nat),
    (∃ c ∈ cs, c.tag = astContinue) →
    ∃ src, irEvent.jump src ctx.continueTo ∈ (emitterCodeLines ctx block cs).2.events := by
  induction cs with
  | nil => intro ctx block h; simp at h
  | cons c rest ih =>
    intro ctx block h
    rcases h with ⟨c0, hc0mem, hc0tag⟩
    rcases List.mem_cons.mp hc0mem with hEq | hMem
    · subst hEq
      obtain ⟨tg, cs', l', r', s', d', v'⟩ := c0
      simp only [ast.tag] at hc0tag
      subst hc0tag
      refine ⟨block, ?_⟩
      simp only [emitterCodeLines]
      apply (emitterCodeLines_frame rest _ _).events_suffix.subset
      simp [emitterLine, irJump, emit, irBlockCreate]
    · have hrest := ih (emitterLine ctx block c).2 (emitterLine ctx block c).1
        ⟨c0, hMem, hc0tag⟩
      rw [(emitterLine_frame c ctx block).continueTo_eq] at hrest
      simpa only [emitterCodeLines] using hrest


/-! The claims. -/

/-- C1, amended.  The function lowerer leaves break_to and continue_to
exactly as they were; it installs return_to := the epilogue block (the
second block it creates) before lowering the body, and the statement
lowering of the body never changes return_to, so return_to is non-null
for the whole of function-body lowering.  Contrary to the original
claim, return_to is not restored at exit and is therefore not null
between functions: at exit it still holds the epilogue block. -/
theorem C1_fnImpl_targets :
    (∀ (ctx : emitterCtx) (node : ast),
      (emitterFnImpl ctx node).1.breakTo = ctx.breakTo ∧
      (emitterFnImpl ctx node).1.continueTo = ctx.continueTo ∧
      (emitterFnImpl ctx node).1.returnTo = some (ctx.nextBlock + 1)) ∧
    (∀ (ctx : emitterCtx) (block : Option Nat) (node : ast) (cont : Nat),
      (emitterCode ctx block node cont).returnTo = ctx.returnTo) := by
  constructor
  · intro ctx node
    obtain ⟨tg, cs, l, r, symb, d, v⟩ := node
    cases r with
    | none =>
      by_cases hm : symb.label = 0 <;>
        simp [emitterFnImpl, emit, irBlockCreate, hm]
    | some body =>
      by_cases hm : symb.label = 0 <;>
        simp only [emitterFnImpl, emit, irBlockCreate, hm, reduceIte] <;>
        exact ⟨(emitterCode_frame body _ _ _).breakTo_eq,
          (emitterCode_frame body _ _ _).continueTo_eq,
          (emitterCode_frame body _ _ _).returnTo_eq⟩
  · intro ctx block node cont
    exact (emitterCode_frame node cont ctx block).returnTo_eq

/-- C1, counterexample to the original claim: lowering one concrete
function from the freshly initialized context leaves return_to set to
the function's epilogue block; it is neither null after the function
lowerer returns nor equal to its (null) value before it ran. -/
theorem C1_counterexample :
    (emitterInit arch0 true).returnTo = none ∧
    (emitterFnImpl (emitterInit arch0 true) emptyFn).1.returnTo = some 1 ∧
    (emitterFnImpl (emitterInit arch0 true) emptyFn).1.returnTo ≠
      (emitterInit arch0 true).returnTo := by
  refine ⟨rfl, by decide, by decide⟩

/-- C2.  The scope offset assigner: the final offset is the start
offset minus the total size of every id visited (walking children in
declaration order, recursing through nested scopes with the running
offset, so sibling scopes accumulate); the offsets stored into the ids
are the running decrements (each id receives start minus the sizes of
all ids up to and including itself, so each id child's slot is written
with the decremented value); children that are neither scopes nor ids
are returned untouched; and the function lowerer negates the final
offset of the walk (from 0) into the stack size it hands to the
prologue. -/
theorem C2_scopeAssignOffsets :
    (∀ (arch : architecture) (s : sym) (off : Int),
      (emitterScopeAssignOffsets arch s off).2 = off - ((idSizes arch s).sum : Int)) ∧
    (∀ (arch : architecture) (s : sym) (off : Int),
      idOffsets (emitterScopeAssignOffsets arch s off).1 =
        offsetsFrom off (idSizes arch s)) ∧
    (∀ (arch : architecture) (cs : List sym) (off : Int),
      List.Forall₂ (fun s s1 => s1.tag = s.tag ∧
        (s.tag ≠ symTag.symScope → s.tag ≠ symTag.symId → s1 = s)) cs
        (scopeAssignList arch cs off).1) ∧
    (∀ (ctx : emitterCtx) (node : ast), ∃ label,
      irEvent.fnPrologue ctx.nextBlock label
        (-(emitterScopeAssignOffsets ctx.arch
            ((node.symbol).setChildren
              (emitterFnParams ctx.arch (node.symbol).children
                (emitterParamBase ctx.arch node.symbol)).1) 0).2)
        ∈ (emitterFnImpl ctx node).1.events) := by
  refine ⟨fun arch s off => scopeAssign_final s arch off,
    fun arch s off => scopeAssign_offsets s arch off,
    fun arch cs off => scopeAssignList_untouched arch cs off, ?_⟩
  intro ctx node
  obtain ⟨tg, cs, l, r, symb, d, v⟩ := node
  refine ⟨if symb.label = 0 then ctx.arch.mangledLabel else symb.label, ?_⟩
  cases r with
  | none =>
    by_cases hm : symb.label = 0 <;>
      simp [emitterFnImpl, emit, irBlockCreate, hm, ast.symbol]
  | some body =>
    by_cases hm : symb.label = 0 <;>
      simp only [emitterFnImpl, emit, irBlockCreate, hm, reduceIte, ast.symbol,
        if_true, if_false] <;>
      (apply List.mem_cons_of_mem
       apply (emitterCode_frame body _ _ _).events_suffix.subset
       exact List.mem_cons_self _ _)

/-- C3.  Parameter offsets: the first parameter is assigned the base
offset 2 times the word size, plus one more word exactly when the
return type is larger than a machine word; each subsequent param child
gets the previous offset plus the previous parameter's size (the
stored offsets are the running increments of the base by the param
sizes, in declaration order); the pass stops at the first non-param
child, leaving the rest untouched; the running offset after the last
parameter is the base plus the sum of all param sizes; and the
function lowerer applies exactly this pass (then the scope walk) to
the function symbol. -/
theorem C3_params :
    (∀ (arch : architecture) (s : sym),
      (emitterFnParams arch s.children (emitterParamBase arch s)).2 =
        emitterParamBase arch s +
          ((s.children.takeWhile isParam).map fun p => (typeGetSize arch p.dt : Int)).sum) ∧
    (∀ (arch : architecture) (s : sym),
      ((emitterFnParams arch s.children (emitterParamBase arch s)).1.take
          (s.children.takeWhile isParam).length).map sym.offset =
        offsetsUpFrom (emitterParamBase arch s)
          ((s.children.takeWhile isParam).map fun p => typeGetSize arch p.dt)) ∧
    (∀ (arch : architecture) (s : sym),
      (emitterFnParams arch s.children (emitterParamBase arch s)).1.drop
          (s.children.takeWhile isParam).length =
        s.children.drop (s.children.takeWhile isParam).length) ∧
    (∀ (arch : architecture) (s : sym), 0 < arch.wordsize →
      (emitterParamBase arch s = 2 * arch.wordsize + arch.wordsize ↔
        arch.wordsize < typeGetSize arch (typeGetReturn s.dt)) ∧
      (¬ arch.wordsize < typeGetSize arch (typeGetReturn s.dt) →
        emitterParamBase arch s = 2 * arch.wordsize)) ∧
    (∀ (ctx : emitterCtx) (node : ast),
      (emitterFnImpl ctx node).2 =
        (emitterScopeAssignOffsets ctx.arch
          ((node.symbol).setChildren
            (emitterFnParams ctx.arch (node.symbol).children
              (emitterParamBase ctx.arch node.symbol)).1) 0).1) := by
  refine ⟨fun arch s => fnParams_final arch s.children _,
    fun arch s => fnParams_offsets arch s.children _,
    fun arch s => fnParams_tail arch s.children _, ?_, ?_⟩
  · intro arch s hw
    unfold emitterParamBase
    by_cases hBig : typeGetSize arch (typeGetReturn s.dt) > arch.wordsize
    · rw [if_pos hBig]
      exact ⟨⟨fun _ => hBig, fun _ => rfl⟩, fun hcon => absurd hBig hcon⟩
    · rw [if_neg hBig]
      refine ⟨⟨fun h => ?_, fun h => absurd h hBig⟩, fun _ => rfl⟩
      exfalso
      omega
  · intro ctx node
    obtain ⟨tg, cs, l, r, symb, d, v⟩ := node
    cases r <;> by_cases hm : symb.label = 0 <;>
      simp [emitterFnImpl, ast.symbol, hm]

/-- C3 witness: at a concrete architecture and function symbol with a
large return and two parameters, the base-offset rule holds as the
claim states. -/
theorem C3_params_witness :
    0 < arch0.wordsize ∧
    (emitterParamBase arch0 fnSymBig = 2 * arch0.wordsize + arch0.wordsize ↔
      arch0.wordsize < typeGetSize arch0 (typeGetReturn fnSymBig.dt)) :=
  ⟨by decide, (C3_params.2.2.2.1 arch0 fnSymBig (by decide)).1⟩

/-- C4.  The return lowerer always ends by emitting an unconditional
jump to return_to (head of the trace); a return with no expression
emits that jump and nothing else; for a returned value larger than a
machine word it lowers the expression, allocates a fresh word-size
register, loads the hidden return pointer from frame base + 2 words
into it, copies the value (at its full size) through that pointer,
frees the source value, then requests the canonical return register at
word size and (when granted) moves the returned reference into it; for
a value of at most word size the canonical return register is
requested at the value's size instead. -/
theorem C4_return :
    (∀ (ctx : emitterCtx) (block : Option Nat) (node : ast),
      (emitterReturn ctx block node).events.head? =
        some (irEvent.jump block ctx.returnTo)) ∧
    (∀ (ctx : emitterCtx) (block : Option Nat) (node : ast), node.r = none →
      (emitterReturn ctx block node).events =
        irEvent.jump block ctx.returnTo :: ctx.events) ∧
    (∀ (ctx : emitterCtx) (block : Option Nat) (node e : ast), node.r = some e →
      ctx.arch.wordsize < typeGetSize ctx.arch e.dt →
      ctx.raxAvailable = true →
      (emitterReturn ctx block node).events =
        irEvent.jump block ctx.returnTo ::
        irEvent.operandFreeEv (operand.reg ctx.nextReg ctx.arch.wordsize) ::
        irEvent.regFreeEv regRAX ::
        irEvent.asmMoveEv (operand.reg regRAX ctx.arch.wordsize)
          (operand.reg ctx.nextReg ctx.arch.wordsize) ::
        irEvent.regRequestEv regRAX ctx.arch.wordsize true ::
        irEvent.operandFreeEv e.valueOperand ::
        irEvent.asmMoveEv (operand.mem ctx.nextReg 0 (typeGetSize ctx.arch e.dt))
          e.valueOperand ::
        irEvent.asmMoveEv (operand.reg ctx.nextReg ctx.arch.wordsize)
          (operand.mem regRBP (2 * (ctx.arch.wordsize : Int)) ctx.arch.wordsize) ::
        irEvent.regAllocEv ctx.nextReg ctx.arch.wordsize ::
        irEvent.evalValueRet e.valueOperand :: ctx.events) ∧
    (∀ (ctx : emitterCtx) (block : Option Nat) (node e : ast), node.r = some e →
      ¬ ctx.arch.wordsize < typeGetSize ctx.arch e.dt →
      irEvent.regRequestEv regRAX (typeGetSize ctx.arch e.dt) ctx.raxAvailable ∈
        (emitterReturn ctx block node).events) := by
  refine ⟨emitterReturn_head, ?_, ?_, ?_⟩
  · intro ctx block node h
    unfold emitterReturn
    rw [h]
    rfl
  · intro ctx block node e h hBig hRax
    unfold emitterReturn
    rw [h]
    simp only [emitterValueRet, regAlloc, regRequest, operandFree, regFree, emit,
      irJump, gt_iff_lt, hBig, hRax, reduceIte, if_true, if_false, operand.base]
  · intro ctx block node e h hBig
    unfold emitterReturn
    rw [h]
    by_cases hRax : ctx.raxAvailable = true <;>
      simp only [emitterValueRet, regAlloc, regRequest, operandFree, regFree, emit,
        irJump, gt_iff_lt, Bool.not_eq_true, hBig, hRax, reduceIte, if_true,
        if_false] <;>
      (try split_ifs) <;>
      simp_all

/-- C4 witness: a concrete large return (12 bytes on a 4-byte-word
architecture) produces exactly the claimed event sequence. -/
theorem C4_return_witness :
    retBig.r = some bigExpr ∧
    arch0.wordsize < typeGetSize arch0 bigExpr.dt ∧
    (emitterReturn (emitterInit arch0 true) (some 5) retBig).events =
      [irEvent.jump (some 5) none,
       irEvent.operandFreeEv (operand.reg 8 4),
       irEvent.regFreeEv 0,
       irEvent.asmMoveEv (operand.reg 0 4) (operand.reg 8 4),
       irEvent.regRequestEv 0 4 true,
       irEvent.operandFreeEv (operand.reg 3 12),
       irEvent.asmMoveEv (operand.mem 8 0 12) (operand.reg 3 12),
       irEvent.asmMoveEv (operand.reg 8 4) (operand.mem 5 8 4),
       irEvent.regAllocEv 8 4,
       irEvent.evalValueRet (operand.reg 3 12)] :=
  ⟨rfl, by decide,
    C4_return.2.2.1 (emitterInit arch0 true) (some 5) retBig bigExpr rfl
      (by decide) rfl⟩

/-- C5.  The loop lowerer is a do-while exactly when the l child is a
code node; the single equation below shows that the two flavors share
everything (body lowered into the body block under break target
continuation and continue target loopCheck, with continuation
loopCheck; the re-test branch-on-value emitted into loopCheck; the
continuation returned) and differ only in the entry event: an
unconditional jump into the body for do-while, a branch-on-value into
body or continuation for while. -/
theorem C5_loop_flavors :
    ∀ (ctx : emitterCtx) (block : Option Nat) (node a b : ast),
    node.l = some a → node.r = some b →
    emitterLoop ctx block node =
      (some ctx.nextBlock,
        let entry : irEvent :=
          if a.tag = astCode then irEvent.jump block (some (ctx.nextBlock + 1))
          else irEvent.branchOnValue block (ctx.nextBlock + 1) ctx.nextBlock
        let code := if a.tag = astCode then a else b
        let after :=
          emitterCode
            ⟨ctx.arch, ctx.returnTo, some ctx.nextBlock, some (ctx.nextBlock + 1 + 1),
              ctx.nextBlock + 1 + 1 + 1, ctx.nextReg, ctx.raxAvailable,
              entry :: ctx.events⟩
            (some (ctx.nextBlock + 1)) code (ctx.nextBlock + 1 + 1)
        ⟨after.arch, after.returnTo, ctx.breakTo, ctx.continueTo, after.nextBlock,
          after.nextReg, after.raxAvailable,
          irEvent.branchOnValue (some (ctx.nextBlock + 1 + 1)) (ctx.nextBlock + 1)
            ctx.nextBlock :: after.events⟩) := by
  intro ctx block node a b hl hr
  obtain ⟨tg, cs, l, r, symb, d, v⟩ := node
  simp only [ast.l, ast.r] at hl hr
  subst hl hr
  by_cases hDo : a.tag = astCode <;>
    simp only [emitterLoop, ast.l, ast.r, irBlockCreate, irJump, emit,
      emitterBranchOnValue, emitterSetBreakTo, emitterSetContinueTo, hDo,
      reduceIte, if_true, if_false]

/-- C5 witness: the concrete while loop with a break body enters via a
branch-on-value and returns block 0 as its continuation. -/
theorem C5_loop_flavors_witness :
    whileBreakLoop.l = some condExpr ∧ whileBreakLoop.r = some whileBody ∧
    (emitterLoop ctxR (some 50) whileBreakLoop).1 = some 0 :=
  ⟨rfl, rfl, by
    rw [C5_loop_flavors ctxR (some 50) whileBreakLoop condExpr whileBody rfl rfl]
    rfl⟩

/-- C6.  The branch lowerer creates a fresh continuation (the next
block id) and returns it; the decomposition shows both arms lowered by
emitterCode with that same continuation; and every emitterCode run
ends by emitting an unconditional jump into its continuation, so both
arms terminate with a jump to the shared join point.  (This holds for
all arms, whether or not they contain return, break or continue: after
those statements the trailing jump is emitted from the fresh dead
block, which is what the claim's restriction avoids mentioning.) -/
theorem C6_branch_join :
    (∀ (ctx : emitterCtx) (block : Option Nat) (node condN thenN elseN : ast)
      (cs : List ast),
      node.children = condN :: cs → node.l = some thenN → node.r = some elseN →
      emitterBranch ctx block node =
        (some ctx.nextBlock,
          emitterCode
            (emitterCode
              ⟨ctx.arch, ctx.returnTo, ctx.breakTo, ctx.continueTo,
                ctx.nextBlock + 1 + 1 + 1, ctx.nextReg, ctx.raxAvailable,
                irEvent.branchOnValue block (ctx.nextBlock + 1)
                  (ctx.nextBlock + 1 + 1) :: ctx.events⟩
              (some (ctx.nextBlock + 1)) thenN ctx.nextBlock)
            (some (ctx.nextBlock + 1 + 1)) elseN ctx.nextBlock)) ∧
    (∀ (ctx1 : emitterCtx) (b1 : Option Nat) (arm : ast) (cont : Nat),
      ∃ src, (emitterCode ctx1 b1 arm cont).events.head? =
        some (irEvent.jump src (some cont))) := by
  constructor
  · intro ctx block node condN thenN elseN cs hcs hl hr
    obtain ⟨tg, cs0, l, r, s, d, v⟩ := node
    simp only [ast.children, ast.l, ast.r] at hcs hl hr
    subst hcs hl hr
    rfl
  · exact emitterCode_head

/-- C6 witness: a concrete if-else, both arms empty code blocks,
returns the first fresh block as its join point. -/
theorem C6_branch_join_witness :
    (stmt astBranch [condExpr] (some (stmt astCode [] none none))
        (some (stmt astCode [] none none))).children = [condExpr] ∧
    (emitterBranch ctxR (some 50)
      (stmt astBranch [condExpr] (some (stmt astCode [] none none))
        (some (stmt astCode [] none none)))).1 = some 0 :=
  ⟨rfl, by
    rw [C6_branch_join.1 ctxR (some 50)
      (stmt astBranch [condExpr] (some (stmt astCode [] none none))
        (some (stmt astCode [] none none))) condExpr (stmt astCode [] none none)
      (stmt astCode [] none none) [] rfl rfl rfl]
    rfl⟩

/-- C7.  The statement lowerer emits an unconditional jump to the
break, continue or return target for a break, continue or return
statement, and returns a freshly created block as the continuation
(the returned id is the previous block counter, which is bumped by
one); a break in a loop body jumps to the very block the loop lowerer
returns as its continuation; a continue in a loop body jumps to the
loop's re-test block; and a continue in an iter body jumps to the
iter's step block. -/
theorem C7_break_continue_return :
    (∀ (ctx : emitterCtx) (block : Option Nat) (node : ast), node.tag = astBreak →
      emitterLine ctx block node =
        (some ctx.nextBlock,
          ⟨ctx.arch, ctx.returnTo, ctx.breakTo, ctx.continueTo, ctx.nextBlock + 1,
            ctx.nextReg, ctx.raxAvailable,
            irEvent.jump block ctx.breakTo :: ctx.events⟩)) ∧
    (∀ (ctx : emitterCtx) (block : Option Nat) (node : ast), node.tag = astContinue →
      emitterLine ctx block node =
        (some ctx.nextBlock,
          ⟨ctx.arch, ctx.returnTo, ctx.breakTo, ctx.continueTo, ctx.nextBlock + 1,
            ctx.nextReg, ctx.raxAvailable,
            irEvent.jump block ctx.continueTo :: ctx.events⟩)) ∧
    (∀ (ctx : emitterCtx) (block : Option Nat) (node : ast), node.tag = astReturn →
      emitterLine ctx block node =
        (some (emitterReturn ctx block node).nextBlock,
          (irBlockCreate (emitterReturn ctx block node)).2) ∧
      (emitterReturn ctx block node).events.head? =
        some (irEvent.jump block ctx.returnTo)) ∧
    (∀ (ctx : emitterCtx) (block : Option Nat) (node a b : ast),
      node.l = some a → node.r = some b →
      (∃ c ∈ (if a.tag = astCode then a else b).children, c.tag = astBreak) →
      (emitterLoop ctx block node).1 = some ctx.nextBlock ∧
      ∃ src, irEvent.jump src (some ctx.nextBlock) ∈
        (emitterLoop ctx block node).2.events) ∧
    (∀ (ctx : emitterCtx) (block : Option Nat) (node a b : ast),
      node.l = some a → node.r = some b →
      (∃ c ∈ (if a.tag = astCode then a else b).children, c.tag = astContinue) →
      ∃ src, irEvent.jump src (some (ctx.nextBlock + 1 + 1)) ∈
        (emitterLoop ctx block node).2.events) ∧
    (∀ (ctx : emitterCtx) (block : Option Nat) (node i c st codeN : ast)
      (cs : List ast),
      node.children = i :: c :: st :: cs → node.l = some codeN →
      (∃ cc ∈ codeN.children, cc.tag = astContinue) →
      ∃ src, irEvent.jump src (some (ctx.nextBlock + 1 + 1)) ∈
        (emitterIter ctx block node).2.events) := by
  refine ⟨?_, ?_, ?_, ?_, ?_, ?_⟩
  · intro ctx block node h
    obtain ⟨tg, cs, l, r, s, d, v⟩ := node
    simp only [ast.tag] at h
    subst h
    rfl
  · intro ctx block node h
    obtain ⟨tg, cs, l, r, s, d, v⟩ := node
    simp only [ast.tag] at h
    subst h
    rfl
  · intro ctx block node h
    obtain ⟨tg, cs, l, r, s, d, v⟩ := node
    simp only [ast.tag] at h
    subst h
    exact ⟨rfl, emitterReturn_head _ _ _⟩
  · intro ctx block node a b hl hr hbrk
    obtain ⟨tg, cs0, l, r, s, d, v⟩ := node
    simp only [ast.l, ast.r] at hl hr
    subst hl hr
    by_cases hDo : a.tag = astCode
    · obtain ⟨at1, acs, al, ar, as1, ad1, av1⟩ := a
      simp only [ast.tag] at hDo
      subst hDo
      simp only [reduceIte, ast.children] at hbrk
      obtain ⟨src, hmem⟩ := codeLines_break_jump acs
        ⟨ctx.arch, ctx.returnTo, some ctx.nextBlock, some (ctx.nextBlock + 1 + 1),
          ctx.nextBlock + 1 + 1 + 1, ctx.nextReg, ctx.raxAvailable,
          irEvent.jump block (some (ctx.nextBlock + 1)) :: ctx.events⟩
        (some (ctx.nextBlock + 1)) hbrk
      refine ⟨rfl, src, ?_⟩
      simp only [emitterLoop, ast.l, ast.r, ast.tag, irBlockCreate, irJump, emit,
        emitterBranchOnValue, emitterSetBreakTo, emitterSetContinueTo, reduceIte,
        emitterCode, emitterCodeLines]
      exact List.mem_cons_of_mem _ (List.mem_cons_of_mem _ hmem)
    · obtain ⟨at1, acs, al, ar, as1, ad1, av1⟩ := a
      obtain ⟨bt1, bcs, bl, br, bs1, bd1, bv1⟩ := b
      simp only [ast.tag] at hDo
      simp only [ast.tag, if_neg hDo, ast.children] at hbrk
      obtain ⟨src, hmem⟩ := codeLines_break_jump bcs
        ⟨ctx.arch, ctx.returnTo, some ctx.nextBlock, some (ctx.nextBlock + 1 + 1),
          ctx.nextBlock + 1 + 1 + 1, ctx.nextReg, ctx.raxAvailable,
          irEvent.branchOnValue block (ctx.nextBlock + 1) ctx.nextBlock :: ctx.events⟩
        (some (ctx.nextBlock + 1)) hbrk
      refine ⟨rfl, src, ?_⟩
      simp only [emitterLoop, ast.l, ast.r, ast.tag, irBlockCreate, irJump, emit,
        emitterBranchOnValue, emitterSetBreakTo, emitterSetContinueTo, if_neg hDo,
        emitterCode, emitterCodeLines]
      exact List.mem_cons_of_mem _ (List.mem_cons_of_mem _ hmem)
  · intro ctx block node a b hl hr hcont
    obtain ⟨tg, cs0, l, r, s, d, v⟩ := node
    simp only [ast.l, ast.r] at hl hr
    subst hl hr
    by_cases hDo : a.tag = astCode
    · obtain ⟨at1, acs, al, ar, as1, ad1, av1⟩ := a
      simp only [ast.tag] at hDo
      subst hDo
      simp only [reduceIte, ast.children] at hcont
      obtain ⟨src, hmem⟩ := codeLines_continue_jump acs
        ⟨ctx.arch, ctx.returnTo, some ctx.nextBlock, some (ctx.nextBlock + 1 + 1),
          ctx.nextBlock + 1 + 1 + 1, ctx.nextReg, ctx.raxAvailable,
          irEvent.jump block (some (ctx.nextBlock + 1)) :: ctx.events⟩
        (some (ctx.nextBlock + 1)) hcont
      refine ⟨src, ?_⟩
      simp only [emitterLoop, ast.l, ast.r, ast.tag, irBlockCreate, irJump, emit,
        emitterBranchOnValue, emitterSetBreakTo, emitterSetContinueTo, reduceIte,
        emitterCode, emitterCodeLines]
      exact List.mem_cons_of_mem _ (List.mem_cons_of_mem _ hmem)
    · obtain ⟨at1, acs, al, ar, as1, ad1, av1⟩ := a
      obtain ⟨bt1, bcs, bl, br, bs1, bd1, bv1⟩ := b
      simp only [ast.tag] at hDo
      simp only [ast.tag, if_neg hDo, ast.children] at hcont
      obtain ⟨src, hmem⟩ := codeLines_continue_jump bcs
        ⟨ctx.arch, ctx.returnTo, some ctx.nextBlock, some (ctx.nextBlock + 1 + 1),
          ctx.nextBlock + 1 + 1 + 1, ctx.nextReg, ctx.raxAvailable,
          irEvent.branchOnValue block (ctx.nextBlock + 1) ctx.nextBlock :: ctx.events⟩
        (some (ctx.nextBlock + 1)) hcont
      refine ⟨src, ?_⟩
      simp only [emitterLoop, ast.l, ast.r, ast.tag, irBlockCreate, irJump, emit,
        emitterBranchOnValue, emitterSetBreakTo, emitterSetContinueTo, if_neg hDo,
        emitterCode, emitterCodeLines]
      exact List.mem_cons_of_mem _ (List.mem_cons_of_mem _ hmem)
  · intro ctx block node i c st codeN cs hcs hl hcont
    obtain ⟨tg, cs0, l, r, s, d, v⟩ := node
    simp only [ast.children, ast.l] at hcs hl
    subst hcs hl
    obtain ⟨ct1, ccs, cl, cr, cS, cD, cV⟩ := codeN
    simp only [ast.children] at hcont
    obtain ⟨src, hmem⟩ := codeLines_continue_jump ccs
      ⟨ctx.arch, ctx.returnTo, some ctx.nextBlock, some (ctx.nextBlock + 1 + 1),
        ctx.nextBlock + 1 + 1 + 1, ctx.nextReg, ctx.raxAvailable,
        irEvent.branchOnValue block (ctx.nextBlock + 1) ctx.nextBlock ::
          (if i.tag = astDecl then irEvent.declLowered block
           else irEvent.evalValue block) :: ctx.events⟩
      (some (ctx.nextBlock + 1)) hcont
    refine ⟨src, ?_⟩
    by_cases hInit : i.tag = astDecl <;>
      simp only [emitterIter, ast.children, ast.l, irBlockCreate, irJump, emit,
        emitterBranchOnValue, emitterSetBreakTo, emitterSetContinueTo,
        emitterDeclStmt, emitterValueVoid, hInit, reduceIte, emitterCode,
        emitterCodeLines] <;>
      simp only [hInit, reduceIte] at hmem <;>
      exact List.mem_cons_of_mem _ (List.mem_cons_of_mem _ (List.mem_cons_of_mem _ hmem))

/-- C7 witness: in the concrete while loop with a break, the break's
jump goes to block 0, which is exactly the continuation the loop
lowerer returns. -/
theorem C7_break_continue_return_witness :
    (∃ c ∈ whileBody.children, c.tag = astBreak) ∧
    (emitterLoop ctxR (some 50) whileBreakLoop).1 = some 0 ∧
    (∃ src, irEvent.jump src (some 0) ∈
      (emitterLoop ctxR (some 50) whileBreakLoop).2.events) := by
  have h := C7_break_continue_return.2.2.2.1 ctxR (some 50) whileBreakLoop condExpr
    whileBody rfl rfl ⟨breakStmt, List.mem_cons_self _ _, rfl⟩
  exact ⟨⟨breakStmt, List.mem_cons_self _ _, rfl⟩, h.1, h.2⟩

/-- C8.  Both the loop and the iter lowerer leave break_to and
continue_to at exit exactly as they were at entry; the two
decomposition equations show that during body lowering break_to holds
the continuation block and continue_to holds the loop's re-test block
(loop) or the step block (iter), and that both are restored from the
saved values afterwards. -/
theorem C8_loop_iter_targets :
    (∀ (ctx : emitterCtx) (block : Option Nat) (node : ast),
      (emitterLoop ctx block node).2.breakTo = ctx.breakTo ∧
      (emitterLoop ctx block node).2.continueTo = ctx.continueTo) ∧
    (∀ (ctx : emitterCtx) (block : Option Nat) (node : ast),
      (emitterIter ctx block node).2.breakTo = ctx.breakTo ∧
      (emitterIter ctx block node).2.continueTo = ctx.continueTo) ∧
    (∀ (ctx : emitterCtx) (block : Option Nat) (node a b : ast),
      node.l = some a → node.r = some b →
      emitterLoop ctx block node =
        (some ctx.nextBlock,
          let entry : irEvent :=
            if a.tag = astCode then irEvent.jump block (some (ctx.nextBlock + 1))
            else irEvent.branchOnValue block (ctx.nextBlock + 1) ctx.nextBlock
          let code := if a.tag = astCode then a else b
          let after :=
            emitterCode
              ⟨ctx.arch, ctx.returnTo, some ctx.nextBlock,
                some (ctx.nextBlock + 1 + 1), ctx.nextBlock + 1 + 1 + 1,
                ctx.nextReg, ctx.raxAvailable, entry :: ctx.events⟩
              (some (ctx.nextBlock + 1)) code (ctx.nextBlock + 1 + 1)
          ⟨after.arch, after.returnTo, ctx.breakTo, ctx.continueTo, after.nextBlock,
            after.nextReg, after.raxAvailable,
            irEvent.branchOnValue (some (ctx.nextBlock + 1 + 1)) (ctx.nextBlock + 1)
              ctx.nextBlock :: after.events⟩)) ∧
    (∀ (ctx : emitterCtx) (block : Option Nat) (node i c st codeN : ast)
      (cs : List ast),
      node.children = i :: c :: st :: cs → node.l = some codeN →
      emitterIter ctx block node =
        (some ctx.nextBlock,
          let initEv : irEvent :=
            if i.tag = astDecl then irEvent.declLowered block
            else irEvent.evalValue block
          let after :=
            emitterCode
              ⟨ctx.arch, ctx.returnTo, some ctx.nextBlock,
                some (ctx.nextBlock + 1 + 1), ctx.nextBlock + 1 + 1 + 1,
                ctx.nextReg, ctx.raxAvailable,
                irEvent.branchOnValue block (ctx.nextBlock + 1) ctx.nextBlock ::
                  initEv :: ctx.events⟩
              (some (ctx.nextBlock + 1)) codeN (ctx.nextBlock + 1 + 1)
          ⟨after.arch, after.returnTo, ctx.breakTo, ctx.continueTo, after.nextBlock,
            after.nextReg, after.raxAvailable,
            irEvent.branchOnValue (some (ctx.nextBlock + 1 + 1)) (ctx.nextBlock + 1)
              ctx.nextBlock ::
              irEvent.evalValue (some (ctx.nextBlock + 1 + 1)) :: after.events⟩)) := by
  refine ⟨?_, ?_, ?_, ?_⟩
  · intro ctx block node
    obtain ⟨tg, cs, l, r, s, d, v⟩ := node
    rcases l with _ | a <;> rcases r with _ | b
    · exact ⟨rfl, rfl⟩
    · exact ⟨rfl, rfl⟩
    · exact ⟨rfl, rfl⟩
    · by_cases hDo : a.tag = astCode <;>
        simp [emitterLoop, ast.l, ast.r, hDo, irBlockCreate, irJump, emit,
          emitterBranchOnValue, emitterSetBreakTo, emitterSetContinueTo]
  · intro ctx block node
    obtain ⟨tg, cs, l, r, s, d, v⟩ := node
    rcases cs with _ | ⟨i, _ | ⟨c, _ | ⟨st, cs⟩⟩⟩ <;> rcases l with _ | codeN <;>
      try exact ⟨rfl, rfl⟩
    by_cases hInit : i.tag = astDecl <;>
      simp [emitterIter, ast.children, ast.l, hInit, irBlockCreate, irJump, emit,
        emitterBranchOnValue, emitterSetBreakTo, emitterSetContinueTo,
        emitterDeclStmt, emitterValueVoid]
  · intro ctx block node a b hl hr
    obtain ⟨tg, cs0, l, r, s, d, v⟩ := node
    simp only [ast.l, ast.r] at hl hr
    subst hl hr
    by_cases hDo : a.tag = astCode <;>
      simp only [emitterLoop, ast.l, ast.r, irBlockCreate, irJump, emit,
        emitterBranchOnValue, emitterSetBreakTo, emitterSetContinueTo, hDo,
        reduceIte, if_true, if_false]
  · intro ctx block node i c st codeN cs hcs hl
    obtain ⟨tg, cs0, l, r, s, d, v⟩ := node
    simp only [ast.children, ast.l] at hcs hl
    subst hcs hl
    by_cases hInit : i.tag = astDecl <;>
      simp only [emitterIter, ast.children, ast.l, irBlockCreate, irJump, emit,
        emitterBranchOnValue, emitterSetBreakTo, emitterSetContinueTo,
        emitterDeclStmt, emitterValueVoid, hInit, reduceIte, if_true, if_false]

/-- C8 witness: the concrete while loop entered with null jump targets
restores them to null. -/
theorem C8_loop_iter_targets_witness :
    (emitterLoop ctxR (some 50) whileBreakLoop).2.breakTo = none ∧
    (emitterIter ctxR (some 50) iterContinueLoop).2.continueTo = none := by
  constructor
  · exact (C8_loop_iter_targets.1 ctxR (some 50) whileBreakLoop).1
  · exact (C8_loop_iter_targets.2.1 ctxR (some 50) iterContinueLoop).2

/-- C9.  At the failing input (a statement whose tag the statement
dispatch does not handle), the fault is reported through the debug
sink with the tag's string form, the statement contributes no IR and
the module dispatch does continue with the remaining items; but the
statement lowerer returns the C function's uninitialized local
continuation (modelled as none), not a well-defined block. -/
theorem C9_unhandled_tag :
    (emitterModule (emitterInit arch0 true)
        (stmt astCode [breakStmt, emptyStmt] none none)).events =
      [irEvent.debugMsgEv "Empty",
       irEvent.debugErrorUnhandledEv "emitterModule" "astBreak"] ∧
    emitterLine (emitterInit arch0 true) (some 0) usingStmt =
      (none, emit (emitterInit arch0 true)
        (.debugErrorUnhandledEv "emitterLine" "astUsing")) := by
  exact ⟨by decide, by decide⟩

/-- C10.  emitterInit leaves break_to and continue_to null; a break or
continue lowered while the corresponding target is still null emits an
unconditional jump whose target is the null pointer; and under the
precondition that every break and continue in the statement is
syntactically inside a loop or iter body (and the return target is
installed, as the function lowerer always does), every jump emitted by
the statement lowerer has a non-null target. -/
theorem C10_null_jump_targets :
    (∀ (arch : architecture) (rax : Bool),
      (emitterInit arch rax).breakTo = none ∧
      (emitterInit arch rax).continueTo = none) ∧
    (∀ (ctx : emitterCtx) (block : Option Nat) (node : ast),
      node.tag = astBreak → ctx.breakTo = none →
      (emitterLine ctx block node).2.events.head? =
        some (irEvent.jump block none)) ∧
    (∀ (ctx : emitterCtx) (block : Option Nat) (node : ast),
      node.tag = astContinue → ctx.continueTo = none →
      (emitterLine ctx block node).2.events.head? =
        some (irEvent.jump block none)) ∧
    (∀ (node : ast) (ctx : emitterCtx) (block : Option Nat),
      ctx.returnTo.isSome = true →
      safeStmt (ctx.breakTo.isSome && ctx.continueTo.isSome) node = true →
      jumpTargetsDefined ctx.events = true →
      jumpTargetsDefined (emitterLine ctx block node).2.events = true) := by
  refine ⟨fun arch rax => ⟨rfl, rfl⟩, ?_, ?_, emitterLine_jumpSafe⟩
  · intro ctx block node h hnull
    obtain ⟨tg, cs, l, r, s, d, v⟩ := node
    simp only [ast.tag] at h
    subst h
    simp [emitterLine, irJump, emit, irBlockCreate, hnull]
  · intro ctx block node h hnull
    obtain ⟨tg, cs, l, r, s, d, v⟩ := node
    simp only [ast.tag] at h
    subst h
    simp [emitterLine, irJump, emit, irBlockCreate, hnull]

/-- C10 witness: a bare break from the initial context jumps to the
null target; the concrete while loop with a break, lowered with the
return target installed, produces only jumps with non-null targets. -/
theorem C10_null_jump_targets_witness :
    (emitterLine (emitterInit arch0 true) (some 0) breakStmt).2.events.head? =
      some (irEvent.jump (some 0) none) ∧
    safeStmt (ctxR.breakTo.isSome && ctxR.continueTo.isSome) whileBreakLoop = true ∧
    jumpTargetsDefined (emitterLine ctxR (some 0) whileBreakLoop).2.events = true :=
  ⟨C10_null_jump_targets.2.1 (emitterInit arch0 true) (some 0) breakStmt rfl rfl,
   by decide,
   C10_null_jump_targets.2.2.2 whileBreakLoop ctxR (some 0) rfl (by decide) rfl⟩

end Fcc
